import Mathlib

/-!
Shallow embedding of `timedeltafmt` (src/timedeltafmt/__init__.py).

Strings are modelled as `List Char`.  Python `int` becomes `Int`/`Nat`
(magnitudes inside the formatting loop are nonnegative, so they are `Nat`).
A unit duration (Python `int` or `float`) becomes the tagged type `Dur`:
`Dur.i n` for an `int`, `Dur.f q` for a `float` represented by its exact
rational value (every finite IEEE float is an exact rational, and Python's
`float.as_integer_ratio` returns exactly that rational in lowest terms,
which is `q.num / q.den`).  The regex character classes `\d` and `\s` are
modelled by their ASCII meaning.
-/

deriving instance DecidableEq for Except

namespace Tdf

/-- Python `\s` / `str.strip` whitespace, ASCII part. -/
def isPySpace (c : Char) : Bool :=
  c == ' ' || c == '\t' || c == '\n' || c == '\r' || c == '\x0b' || c == '\x0c'

/-- Python `str.strip`: drop leading and trailing whitespace. -/
def pstrip (l : List Char) : List Char :=
  ((l.dropWhile isPySpace).reverse.dropWhile isPySpace).reverse

/-- Lexicographic `≤` on strings (Python string comparison by code points). -/
def lexLe : List Char → List Char → Bool
  | [], _ => true
  | _ :: _, [] => false
  | a :: as, b :: bs => if a < b then true else if b < a then false else lexLe as bs

/-- Unit durations: Python `int` or `float` (by its exact rational value). -/
inductive Dur where
  | i (n : ℤ)
  | f (q : ℚ)
deriving DecidableEq

/-- Value of a duration as a rational (Python int/float comparisons are exact). -/
def Dur.q : Dur → ℚ
  | .i n => (n : ℚ)
  | .f x => x

/-- Source line 34: `dt <= 0` rejection test (a model `Dur` is always finite). -/
def durPos : Dur → Bool
  | .i n => decide (0 < n)
  | .f x => decide (0 < x)

/-- Source lines 40-41: a float that `is_integer()` is cast to `int`. -/
def normDur : Dur → Dur
  | .i n => .i n
  | .f x => if x.den = 1 then .i x.num else .f x

/-- Lookup in an association list, first match wins (Python dict lookup;
the lists we build have distinct keys). -/
def assocFind (k : List Char) : List (List Char × Dur) → Option Dur
  | [] => none
  | p :: rest => if p.1 = k then some p.2 else assocFind k rest

/-- Decidable string-prefix test (used for matching a literal alternative). -/
def isPre : List Char → List Char → Bool
  | [], _ => true
  | _ :: _, [] => false
  | a :: as, b :: bs => a == b && isPre as bs

/-- One alternative of the tokenizing pattern `([-+]?\d+)(u1|u2|...)\s*`
built at source lines 57-62: a literal (escaped) unit name, the empty unit
name compiled to `(?!\D)`, or the degenerate empty alternative that the
pattern contains when the registry has no units at all (the join of zero
alternatives is the empty regex, which matches the empty string with no
lookahead). -/
inductive UnitAlt where
  | lit (name : List Char)
  | bareNum
  | plainEmpty
deriving DecidableEq

/-- The lookahead `(?!\D)` succeeds iff the position is at end of input or
the next character is a digit. -/
def bareOk : List Char → Bool
  | [] => true
  | c :: _ => c.isDigit

/-- First alternative of the alternation that matches at `s`
(regex alternation tries alternatives left to right);
returns the captured unit name. -/
def firstAlt : List UnitAlt → List Char → Option (List Char)
  | [], _ => none
  | .lit k :: rest, s => if isPre k s then some k else firstAlt rest s
  | .bareNum :: rest, s => if bareOk s then some [] else firstAlt rest s
  | .plainEmpty :: _, _ => some []

/-- Backtracking over the greedy `\d+`: `revDs` holds the digits taken so far
in reversed order, `tail` the rest of the input.  Try the alternation; on
failure give the last digit back to the input and retry, keeping at least one
digit.  Returns (digits used, unit name, rest after the name). -/
def tryAlts (alts : List UnitAlt) : List Char → List Char → Option (List Char × List Char × List Char)
  | [], _ => none
  | d :: rest, tail =>
    match firstAlt alts tail with
    | some name => some ((d :: rest).reverse, name, tail.drop name.length)
    | none => if rest.isEmpty then none else tryAlts alts rest (d :: tail)

/-- Numeric value of a digit string (what Python `int` does to the digits). -/
def digitsVal (ds : List Char) : ℕ := ds.foldl (fun a c => 10 * a + (c.toNat - 48)) 0

/-- Optional sign `[-+]?` at the start of a token. -/
def splitSign : List Char → Bool × List Char
  | '-' :: t => (true, t)
  | '+' :: t => (false, t)
  | s => (false, s)

/-- Match of `([-+]?\d+)(alternation)` at the start of `s`:
value of group 1, name captured by group 2, rest of the input (before `\s*`).
Backtracking of `[-+]?` is immaterial: if the sign is taken and no digit
follows, retrying without the sign fails too, since a sign is not a digit. -/
def matchRaw (alts : List UnitAlt) (s : List Char) : Option (Int × List Char × List Char) :=
  let sg := splitSign s
  match tryAlts alts (sg.2.takeWhile Char.isDigit).reverse (sg.2.dropWhile Char.isDigit) with
  | none => none
  | some (used, name, rest) =>
    some (if sg.1 then -(digitsVal used : ℤ) else (digitsVal used : ℤ), name, rest)

/-- Full token match including the trailing `\s*` of the pattern. -/
def matchAt (alts : List UnitAlt) (s : List Char) : Option (Int × List Char × List Char) :=
  (matchRaw alts s).map (fun t => (t.1, t.2.1, t.2.2.dropWhile isPySpace))

/-- Errors raised during parsing: `ValueError` with offending index and a
ten-character excerpt (source lines 92 and 105), or `KeyError` from the
registry lookup at source line 95. -/
inductive PErr where
  | parseErr (i : ℕ) (excerpt : List Char)
  | keyErr (u : List Char)
deriving DecidableEq

/-- Truncation toward zero, Python `modf` integer part / `int()` of a float. -/
def ratTrunc (q : ℚ) : ℤ := Int.tdiv q.num (q.den : ℤ)

/-- Fractional part with the sign of `q` (Python `modf` fractional part),
written with `mkRat` so that it evaluates by kernel reduction;
`ratFrac_eq` below identifies it with `q - trunc q`. -/
def ratFrac (q : ℚ) : ℚ := mkRat (Int.tmod q.num (q.den : ℤ)) q.den

/-- Product `k * q` of an integer and a rational, written with `mkRat` so
that it evaluates by kernel reduction; `intMulQ_eq` identifies it with the
ordinary product. -/
def intMulQ (k : ℤ) (q : ℚ) : ℚ := mkRat (k * q.num) q.den

/-- Sum of two rationals, written with `mkRat` so that it evaluates by
kernel reduction; `qAdd_eq` identifies it with the ordinary sum. -/
def qAdd (a b : ℚ) : ℚ := mkRat (a.num * (b.den : ℤ) + b.num * (a.den : ℤ)) (a.den * b.den)

theorem ratFrac_eq (q : ℚ) : ratFrac q = q - (ratTrunc q : ℚ) := by
  have hden : ((q.den : ℚ)) ≠ 0 := Nat.cast_ne_zero.mpr q.den_nz
  rw [ratFrac, ratTrunc, Rat.mkRat_eq_div]
  have h := Int.tdiv_add_tmod q.num (q.den : ℤ)
  have h2 : Int.tmod q.num (q.den : ℤ)
      = q.num - (q.den : ℤ) * Int.tdiv q.num (q.den : ℤ) := by linarith
  rw [h2]
  push_cast
  rw [sub_div, Rat.num_div_den]
  congr 1
  rw [mul_comm, mul_div_assoc, div_self hden, mul_one]

theorem intMulQ_eq (k : ℤ) (q : ℚ) : intMulQ k q = (k : ℚ) * q := by
  rw [intMulQ, Rat.mul_def, Rat.normalize_eq_mkRat]
  norm_num

theorem qAdd_eq (a b : ℚ) : qAdd a b = a + b := (Rat.add_def' a b).symm

theorem splitSign_snd_len (s : List Char) : (splitSign s).2.length ≤ s.length := by
  unfold splitSign
  split <;> simp

theorem tryAlts_rest_lt (alts : List UnitAlt) :
    ∀ revDs tail u n r,
      tryAlts alts revDs tail = some (u, n, r) →
      r.length < revDs.length + tail.length := by
  intro revDs
  induction revDs with
  | nil => intro tail u n r h; simp [tryAlts] at h
  | cons d rest ih =>
    intro tail u n r h
    rw [tryAlts] at h
    cases hfa : firstAlt alts tail with
    | some name =>
      rw [hfa] at h
      simp only [Option.some.injEq, Prod.mk.injEq] at h
      obtain ⟨-, -, hr⟩ := h
      have : r.length ≤ tail.length := by
        rw [← hr, List.length_drop]; omega
      simp only [List.length_cons]; omega
    | none =>
      rw [hfa] at h
      cases rest with
      | nil => simp at h
      | cons d2 rest2 =>
        simp only [List.isEmpty_cons, if_neg] at h
        have := ih (d :: tail) u n r (by simpa using h)
        simp only [List.length_cons] at this ⊢
        omega

theorem matchRaw_rest_lt (alts : List UnitAlt) (s : List Char) (v : Int)
    (n r : List Char) (h : matchRaw alts s = some (v, n, r)) : r.length < s.length := by
  simp only [matchRaw] at h
  cases hta : tryAlts alts (((splitSign s).2.takeWhile Char.isDigit).reverse)
      ((splitSign s).2.dropWhile Char.isDigit) with
  | none => rw [hta] at h; simp at h
  | some trip =>
    rw [hta] at h
    obtain ⟨used, nm, rst⟩ := trip
    simp only [Option.some.injEq, Prod.mk.injEq] at h
    obtain ⟨-, -, hr⟩ := h
    have hlt := tryAlts_rest_lt alts _ _ used nm rst hta
    rw [hr] at hlt
    rw [List.length_reverse] at hlt
    have hsum : (List.takeWhile Char.isDigit (splitSign s).2).length
        + (List.dropWhile Char.isDigit (splitSign s).2).length = (splitSign s).2.length := by
      rw [← List.length_append, List.takeWhile_append_dropWhile]
    have := splitSign_snd_len s
    omega

theorem matchAt_rest_lt (alts : List UnitAlt) (s : List Char) (v : Int)
    (n r : List Char) (h : matchAt alts s = some (v, n, r)) : r.length < s.length := by
  unfold matchAt at h
  cases hm : matchRaw alts s with
  | none => rw [hm] at h; exact Option.noConfusion h
  | some trip =>
    rw [hm] at h
    obtain ⟨v0, n0, r0⟩ := trip
    have hr : r0.dropWhile isPySpace = r :=
      congrArg (fun t => t.2.2) (Option.some.inj h)
    have h1 : (r0.dropWhile isPySpace).length ≤ r0.length :=
      (List.dropWhile_sublist _).length_le
    rw [hr] at h1
    have h2 := matchRaw_rest_lt alts s v0 n0 r0 hm
    omega

/-- Body of `parse_int` (source lines 85-111): consume tokens strictly from the
current position; raise `ValueError` at the first position where no token
matches (this covers both the gap case, source line 92, and the leftover case,
source line 105, which produce the same index and excerpt); look each unit up
in the registry (`KeyError` if absent); integer products add to the running
total, fractional products split into integer part and carried fraction;
at the end fold the carry's integer part into the total.  The `fuel`
argument only makes the recursion structural: every token consumes at least
one character, so the fuel `parseInt` supplies is never exhausted
(`parseGo_fuel` below), and the fuel-out arm is dead code. -/
def parseGo (alts : List UnitAlt) (durs : List (List Char × Dur)) :
    ℕ → List Char → ℕ → ℤ → ℚ → Except PErr ℤ
  | _, [], _, acc, carry => .ok (acc + ratTrunc carry)
  | 0, _ :: _, pos, _, _ => .error (.parseErr pos [])
  | fuel + 1, c :: rem, pos, acc, carry =>
    match matchAt alts (c :: rem) with
    | none => .error (.parseErr pos ((c :: rem).take 10))
    | some (k, name, rest) =>
      match assocFind name durs with
      | none => .error (.keyErr name)
      | some (.i n) =>
        parseGo alts durs fuel rest (pos + ((c :: rem).length - rest.length)) (acc + k * n) carry
      | some (.f x) =>
        parseGo alts durs fuel rest (pos + ((c :: rem).length - rest.length))
          (acc + ratTrunc (intMulQ k x)) (qAdd carry (ratFrac (intMulQ k x)))

/-- Configuration-time and formatting-time errors: `ValueError` for a
non-positive duration, `ValueError` for an unknown output unit,
`ValueError` for a repeated unit in `make_formatter`, `RuntimeError` when
formatting with no output units, and `ZeroDivisionError` when the
fixed-precision fallback divisor truncates to zero. -/
inductive CfgErr where
  | nonPos (u : List Char)
  | badUnit (u : List Char)
  | repeated (u : List Char)
  | noUnits
  | zeroDivErr
deriving DecidableEq

/-- Constructed formatter state: the tokenizing pattern's alternatives in
order, the registry dict as an association list in insertion order, and the
output (name, duration) pairs sorted by duration descending. -/
structure Fmt where
  alts : List UnitAlt
  durs : List (List Char × Dur)
  fmtUnits : List (List Char × Dur)
deriving DecidableEq

/-- Method `parse_int`: strip, then scan. -/
def parseInt (F : Fmt) (s : List Char) : Except PErr ℤ :=
  parseGo F.alts F.durs (pstrip s).length (pstrip s) 0 0 0

theorem parseGo_nil (alts : List UnitAlt) (durs : List (List Char × Dur))
    (fuel pos : ℕ) (acc : ℤ) (carry : ℚ) :
    parseGo alts durs fuel [] pos acc carry = .ok (acc + ratTrunc carry) := by
  cases fuel <;> rfl

theorem parseGo_stuck (alts : List UnitAlt) (durs : List (List Char × Dur))
    (fuel : ℕ) (c : Char) (rem : List Char) (pos : ℕ) (acc : ℤ) (carry : ℚ)
    (hm : matchAt alts (c :: rem) = none) :
    parseGo alts durs (fuel + 1) (c :: rem) pos acc carry =
      .error (.parseErr pos ((c :: rem).take 10)) := by
  simp only [parseGo, hm]

theorem parseGo_cons_eq (alts : List UnitAlt) (durs : List (List Char × Dur))
    (fuel : ℕ) (c : Char) (rem : List Char) (pos : ℕ) (acc : ℤ) (carry : ℚ)
    (k : ℤ) (name rest : List Char)
    (hm : matchAt alts (c :: rem) = some (k, name, rest)) :
    parseGo alts durs (fuel + 1) (c :: rem) pos acc carry =
      match assocFind name durs with
      | none => .error (.keyErr name)
      | some (.i n) =>
        parseGo alts durs fuel rest (pos + ((c :: rem).length - rest.length)) (acc + k * n) carry
      | some (.f x) =>
        parseGo alts durs fuel rest (pos + ((c :: rem).length - rest.length))
          (acc + ratTrunc (intMulQ k x)) (qAdd carry (ratFrac (intMulQ k x))) := by
  simp only [parseGo, hm]

/-- Fuel irrelevance: any fuel at least the length of the remaining input
gives the same result, so the fuel-out arm of `parseGo` is unreachable from
`parseInt`. -/
theorem parseGo_fuel (alts : List UnitAlt) (durs : List (List Char × Dur)) :
    ∀ f1 f2 rem pos acc carry, rem.length ≤ f1 → rem.length ≤ f2 →
      parseGo alts durs f1 rem pos acc carry = parseGo alts durs f2 rem pos acc carry := by
  intro f1
  induction f1 using Nat.strong_induction_on with
  | _ f1 ih =>
    intro f2 rem pos acc carry h1 h2
    cases rem with
    | nil => rw [parseGo_nil, parseGo_nil]
    | cons c rem0 =>
      cases f1 with
      | zero => simp at h1
      | succ f1p =>
        cases f2 with
        | zero => simp at h2
        | succ f2p =>
          cases hm : matchAt alts (c :: rem0) with
          | none => rw [parseGo_stuck _ _ _ _ _ _ _ _ hm, parseGo_stuck _ _ _ _ _ _ _ _ hm]
          | some trip =>
            obtain ⟨k, name, rest⟩ := trip
            have hlt := matchAt_rest_lt alts (c :: rem0) k name rest hm
            simp only [List.length_cons] at hlt h1 h2
            rw [parseGo_cons_eq _ _ _ _ _ _ _ _ _ _ _ hm, parseGo_cons_eq _ _ _ _ _ _ _ _ _ _ _ hm]
            cases hd : assocFind name durs with
            | none => rfl
            | some d =>
              cases d with
              | i n => exact ih f1p (by omega) f2p rest _ _ _ (by omega) (by omega)
              | f x => exact ih f1p (by omega) f2p rest _ _ _ (by omega) (by omega)

/-- Python `abs(us) < duration`, an exact int-vs-int or int-vs-float test. -/
def durLtNat (mag : ℕ) : Dur → Bool
  | .i n => decide ((mag : ℤ) < n)
  | .f x => decide ((mag : ℚ) < x)

/-- Decomposition loop of `format_int` (source lines 140-179), on the
magnitude.  Stops when the magnitude drops below the resolution, skips a unit
larger than the magnitude, and divides out integer durations exactly.  A float
duration is first treated as the exact ratio `num/den`
(`float.as_integer_ratio`); when the remainder decomposition leaves `z = 0`
the division was exact, otherwise fall back to a fixed-precision division by
`int(duration * 10^15)` carrying the fractional remainder `frac` forward. -/
def formatLoop : List (List Char × Dur) → ℕ → ℕ → ℤ → Except CfgErr (List (ℕ × List Char))
  | [], _, _, _ => .ok []
  | (u, d) :: rest, mag, frac, res =>
    if (mag : ℤ) < res then .ok []
    else if durLtNat mag d then formatLoop rest mag frac res
    else
      match d with
      | .i n =>
        (formatLoop rest (mag % n.toNat) frac res).map (fun ps => (mag / n.toNat, u) :: ps)
      | .f x =>
        let num := x.num.toNat
        let den := x.den
        let rt := mag * den % num
        if rt % den = 0 then
          (formatLoop rest (rt / den) frac res).map (fun ps => (mag * den / num, u) :: ps)
        else
          let dv := num * 10 ^ 15 / den
          if dv = 0 then .error .zeroDivErr
          else
            let r2 := (mag * 10 ^ 15 + frac) % dv
            (formatLoop rest (r2 / 10 ^ 15) (r2 % 10 ^ 15) res).map
              (fun ps => ((mag * 10 ^ 15 + frac) / dv, u) :: ps)

theorem formatLoop_cons_i (u : List Char) (n : ℤ) (rest : List (List Char × Dur))
    (mag frac : ℕ) (res : ℤ) :
    formatLoop ((u, .i n) :: rest) mag frac res =
      if (mag : ℤ) < res then .ok []
      else if durLtNat mag (.i n) then formatLoop rest mag frac res
      else
        (formatLoop rest (mag % n.toNat) frac res).map (fun ps => (mag / n.toNat, u) :: ps) :=
  rfl

theorem formatLoop_cons_f (u : List Char) (x : ℚ) (rest : List (List Char × Dur))
    (mag frac : ℕ) (res : ℤ) :
    formatLoop ((u, .f x) :: rest) mag frac res =
      if (mag : ℤ) < res then .ok []
      else if durLtNat mag (.f x) then formatLoop rest mag frac res
      else
        if mag * x.den % x.num.toNat % x.den = 0 then
          (formatLoop rest (mag * x.den % x.num.toNat / x.den) frac res).map
            (fun ps => (mag * x.den / x.num.toNat, u) :: ps)
        else
          if x.num.toNat * 10 ^ 15 / x.den = 0 then .error .zeroDivErr
          else
            (formatLoop rest
                ((mag * 10 ^ 15 + frac) % (x.num.toNat * 10 ^ 15 / x.den) / 10 ^ 15)
                ((mag * 10 ^ 15 + frac) % (x.num.toNat * 10 ^ 15 / x.den) % 10 ^ 15) res).map
              (fun ps => ((mag * 10 ^ 15 + frac) / (x.num.toNat * 10 ^ 15 / x.den), u) :: ps) :=
  rfl

/-- Decimal digits of `n`, least significant first; the fuel (first argument)
makes the recursion structural and any fuel at least `n` is enough. -/
def natDigitsAux : ℕ → ℕ → List ℕ
  | 0, _ => []
  | fuel + 1, n => if n = 0 then [] else n % 10 :: natDigitsAux fuel (n / 10)

/-- Decimal digits of `n`, least significant first. -/
def natDigits (n : ℕ) : List ℕ := natDigitsAux n n

theorem natDigitsAux_eq_digits :
    ∀ fuel n, n ≤ fuel → natDigitsAux fuel n = Nat.digits 10 n := by
  intro fuel
  induction fuel with
  | zero =>
    intro n hn
    have : n = 0 := Nat.le_zero.mp hn
    subst this
    simp [natDigitsAux]
  | succ f ih =>
    intro n hn
    rw [natDigitsAux]
    by_cases h0 : n = 0
    · subst h0; simp
    · rw [if_neg h0]
      have hlt : n / 10 ≤ f := by
        have : n / 10 < n := Nat.div_lt_self (Nat.pos_of_ne_zero h0) (by norm_num)
        omega
      rw [ih _ hlt]
      exact (Nat.digits_def' (by norm_num) (Nat.pos_of_ne_zero h0)).symm

theorem natDigits_eq_digits (n : ℕ) : natDigits n = Nat.digits 10 n :=
  natDigitsAux_eq_digits n n le_rfl

/-- Decimal digits of `n`, most significant first (Python `str` of a
nonnegative int). -/
def natNumeral (n : ℕ) : List Char :=
  if n = 0 then ['0'] else (natDigits n).reverse.map Nat.digitChar

/-- Python `str` of an int: minus sign then the digits of the magnitude. -/
def intNumeral (k : ℤ) : List Char :=
  if k < 0 then '-' :: natNumeral k.natAbs else natNumeral k.natAbs

/-- Python `' '.join`. -/
def joinSpace : List (List Char) → List Char
  | [] => []
  | [x] => x
  | x :: xs => x ++ ' ' :: joinSpace xs

/-- Parts emitted by `format_int`, with the sign already applied to each
count (source line 179: `f-string` of `n * sign`). -/
def signedParts (F : Fmt) (us : ℤ) (res : ℤ) : Except CfgErr (List (ℤ × List Char)) :=
  (formatLoop F.fmtUnits us.natAbs 0 res).map
    (fun ps => ps.map (fun p => ((if 0 ≤ us then 1 else -1) * (p.1 : ℤ), p.2)))

/-- Rendering of the signed parts: each part is the numeral of its count
followed by its unit name, the parts joined by single spaces. -/
def renderParts (ps : List (ℤ × List Char)) : List Char :=
  joinSpace (ps.map (fun p => intNumeral p.1 ++ p.2))

/-- Method `format_int` (source lines 125-181). -/
def formatInt (F : Fmt) (us : ℤ) (res : ℤ) (zero : List Char) : Except CfgErr (List Char) :=
  if F.fmtUnits = [] then .error .noUnits
  else
    (signedParts F us res).map (fun ps => if ps = [] then zero else renderParts ps)

/-- First registry entry with a non-positive duration (validation loop,
source lines 33-41; dict iteration is insertion order). -/
def firstBad : List (List Char × Dur) → Option (List Char)
  | [] => none
  | p :: rest => if durPos p.2 then firstBad rest else some p.1

/-- First output unit absent from the registry (the `KeyError` turned into
`ValueError` at source lines 43-47; `list.sort(key=...)` evaluates the key of
each element in list order). -/
def firstMissing (durs : List (List Char × Dur)) : List (List Char) → Option (List Char)
  | [] => none
  | u :: rest => if (assocFind u durs).isSome then firstMissing durs rest else some u

/-- Sort key of an output unit: its duration's exact value. -/
def durKeyQ (durs : List (List Char × Dur)) (u : List Char) : ℚ :=
  ((assocFind u durs).getD (.i 0)).q

/-- Ordering used for `format_units.sort(key=durations.__getitem__,
reverse=True)`: duration descending; `List.insertionSort` with this relation
is stable in exactly the way Python's stable sort with `reverse=True` is
(equal keys keep their original relative order). -/
def keyGe (durs : List (List Char × Dur)) (a b : List Char) : Prop :=
  durKeyQ durs b ≤ durKeyQ durs a

instance (durs : List (List Char × Dur)) : DecidableRel (keyGe durs) :=
  fun _ _ => inferInstanceAs (Decidable (_ ≤ _))

/-- Ordering used for `sorted(durations.keys(), reverse=True)`: lexicographic
descending. -/
def lexGe (a b : List Char) : Prop := lexLe b a = true

instance : DecidableRel lexGe := fun _ _ => inferInstanceAs (Decidable (_ = true))

/-- The pattern alternatives (source lines 57-62): unit names sorted
descending, the empty name becoming the `(?!\D)` lookahead; with no names at
all the join of zero alternatives degenerates to the empty regex, which
matches the empty string with no lookahead. -/
def mkAlts (keys : List (List Char)) : List UnitAlt :=
  if keys = [] then [UnitAlt.plainEmpty]
  else (List.insertionSort lexGe keys).map
    (fun k => if k = [] then UnitAlt.bareNum else UnitAlt.lit k)

/-- Second stage of the constructor, after validation and float-to-int
normalization of the registry. -/
def mkFormatter2 (durs2 : List (List Char × Dur)) (fmts : List (List Char)) :
    Except CfgErr Fmt :=
  match firstMissing durs2 fmts with
  | some u => .error (.badUnit u)
  | none =>
    .ok ⟨mkAlts (durs2.map Prod.fst), durs2,
      (List.insertionSort (keyGe durs2) fmts).map
        (fun u => (u, (assocFind u durs2).getD (.i 0)))⟩

/-- Constructor `TimedeltaFormatter.__init__` (source lines 24-64): validate
durations, cast integral floats to int, sort the output units by duration
descending (unknown name is an error), and build the tokenizing pattern.
Advisory warnings (source lines 49-55) are non-fatal and not modelled. -/
def mkFormatter (durs : List (List Char × Dur)) (fmts : List (List Char)) : Except CfgErr Fmt :=
  match firstBad durs with
  | some u => .error (.nonPos u)
  | none => mkFormatter2 (durs.map (fun p => (p.1, normDur p.2))) fmts

/-- Inner loop of `make_formatter` (source lines 202-205): add each alias of
one duration, failing on a name already registered. -/
def addUnits (dt : Dur) : List (List Char) → List (List Char × Dur) → Except CfgErr (List (List Char × Dur))
  | [], acc => .ok acc
  | u :: more, acc =>
    if (assocFind u acc).isSome then .error (.repeated u)
    else addUnits dt more (acc ++ [(u, dt)])

/-- Outer loop of `make_formatter` over the duration → aliases table. -/
def buildDurs : List (Dur × List (List Char)) → List (List Char × Dur) → Except CfgErr (List (List Char × Dur))
  | [], acc => .ok acc
  | (dt, us) :: rest, acc =>
    match addUnits dt us acc with
    | .error e => .error e
    | .ok acc2 => buildDurs rest acc2

/-- Output-unit list used by `make_formatter`: the explicit one if given,
else the first alias of each duration (with at least one alias) in table
order. -/
def resolveFmts (tu : List (Dur × List (List Char))) :
    Option (List (List Char)) → List (List Char)
  | some fs => fs
  | none => (tu.filter (fun p => !p.2.isEmpty)).map (fun p => p.2.headD [])

/-- Factory `make_formatter` (source lines 184-210). -/
def makeFormatter (tu : List (Dur × List (List Char))) (fmtsOpt : Option (List (List Char))) :
    Except CfgErr Fmt :=
  match buildDurs tu [] with
  | .error e => .error e
  | .ok durs => mkFormatter durs (resolveFmts tu fmtsOpt)

/-- Shorthand turning a string literal into the character list it stands for. -/
def cs (s : String) : List Char := s.data

/-- Default unit table (source lines 213-223).  `YEAR = DAY * 365 + DAY // 4`
and `MONTH = YEAR // 12` are exact integers. -/
def defaultTimeUnits : List (Dur × List (List Char)) :=
  [ (.i 1, [cs "us", cs "usec", cs "microseconds"]),
    (.i 1000, [cs "ms", cs "msec", cs "msecs", cs "milliseconds"]),
    (.i 1000000, [cs "s", cs "sec", cs "secs", cs "second", cs "seconds", cs ""]),
    (.i 60000000, [cs "m", cs "min", cs "mins", cs "minute", cs "minutes"]),
    (.i 3600000000, [cs "h", cs "hr", cs "hrs", cs "hour", cs "hours"]),
    (.i 86400000000, [cs "d", cs "day", cs "days"]),
    (.i 604800000000, [cs "w", cs "week", cs "weeks"]),
    (.i 2629800000000, [cs "M", cs "month", cs "months"]),
    (.i 31557600000000, [cs "y", cs "yr", cs "yrs", cs "year", cs "years"]) ]

/-- Default output units (source line 223). -/
def defaultFormatList : List (List Char) :=
  [cs "us", cs "ms", cs "s", cs "m", cs "h", cs "d", cs "M", cs "y"]

/-- The process-wide default formatter `_FORMATTER` (source line 213). -/
def defaultFmt : Fmt :=
  match makeFormatter defaultTimeUnits (some defaultFormatList) with
  | .ok F => F
  | .error _ => ⟨[], [], []⟩

/-- Formatter with units `ha = 3/2` and `ms = 1` from the fractional-format
test (`float.as_integer_ratio` of `1.5` is `(3, 2)`). -/
def haFmt : Fmt :=
  match mkFormatter [(cs "ms", .i 1), (cs "ha", .f (mkRat 3 2))] [cs "ha", cs "ms"] with
  | .ok F => F
  | .error _ => ⟨[], [], []⟩

/-- The formatter a client obtains from an empty durations mapping and empty
output-unit list: its pattern is the degenerate `([-+]?\d+)()\s*`. -/
def emptyFmt : Fmt := ⟨[UnitAlt.plainEmpty], [], []⟩

/-- Formatter whose smallest parseable unit `x` is exactly one microsecond
but whose only output unit `y` is coarser. -/
def cexC1Fmt : Fmt :=
  match mkFormatter [(cs "x", .i 1), (cs "y", .i 1000)] [cs "y"] with
  | .ok F => F
  | .error _ => ⟨[], [], []⟩

/-- Two formatters over the same registry with two equal durations, built
from the two insertion orders of the output-unit list. -/
def tieFmtA : Fmt :=
  match mkFormatter [(cs "a", .i 1), (cs "b", .i 1)] [cs "a", cs "b"] with
  | .ok F => F
  | .error _ => ⟨[], [], []⟩

/-- Companion of `tieFmtA` with the output-unit list in the other order. -/
def tieFmtB : Fmt :=
  match mkFormatter [(cs "a", .i 1), (cs "b", .i 1)] [cs "b", cs "a"] with
  | .ok F => F
  | .error _ => ⟨[], [], []⟩

/-- Formatter with the single non-integral unit `h = 1/2` (the float `0.5`
is exact in binary, so its Python float arithmetic is exact too). -/
def halfFmt : Fmt :=
  match mkFormatter [(cs "h", .f (mkRat 1 2))] [cs "h"] with
  | .ok F => F
  | .error _ => ⟨[], [], []⟩

/-- Formatter one of whose unit names contains a space. -/
def spaceFmt : Fmt :=
  match mkFormatter [(cs "u", .i 1), (cs "u -3u", .i 5)] [cs "u"] with
  | .ok F => F
  | .error _ => ⟨[], [], []⟩

/-- C5: with `ha = 3/2` microseconds and `ms = 1` microsecond (output order
`ha` then `ms`), `format_int 7` at resolution 1 is `"4ha 1ms"` and
`format_int (-7)` is `"-4ha -1ms"`, through the exact-ratio branch
(numerator 3, denominator 2, leftover `z = 0`, checked in the last
conjunct, which evaluates the very branch condition of `formatLoop`). -/
theorem claim_C5 :
    mkFormatter [(cs "ms", .i 1), (cs "ha", .f (mkRat 3 2))] [cs "ha", cs "ms"] = .ok haFmt
    ∧ formatInt haFmt 7 1 (cs "0") = .ok (cs "4ha 1ms")
    ∧ formatInt haFmt (-7) 1 (cs "0") = .ok (cs "-4ha -1ms")
    ∧ (mkRat 3 2).num = 3 ∧ (mkRat 3 2).den = 2
    ∧ 7 * (mkRat 3 2).den % (mkRat 3 2).num.toNat % (mkRat 3 2).den = 0 := by
  exact ⟨by decide, by decide, by decide, by decide, by decide, by decide⟩

/-- C10: constructing a formatter from an empty durations mapping and empty
output-unit list succeeds, but parsing the bare integer `"5"` then raises
`KeyError` (the degenerate pattern's empty alternative matches with the unit
name `""`, which is absent from the registry), not the documented parse
error. -/
theorem claim_C10 :
    mkFormatter [] [] = .ok emptyFmt
    ∧ parseInt emptyFmt (cs "5") = .error (.keyErr (cs ""))
    ∧ ∀ i ex, parseInt emptyFmt (cs "5") ≠ .error (.parseErr i ex) := by
  refine ⟨by decide, by decide, ?_⟩
  intro i ex h
  rw [show parseInt emptyFmt (cs "5") = .error (.keyErr (cs "")) from by decide] at h
  exact PErr.noConfusion (Except.error.inj h)

/-- C1, counterexample: `cexC1Fmt` registers `x` at exactly 1 microsecond
(so its smallest parseable unit is exactly 1 microsecond), yet
`parse_int (format_int 5 1)` is a parse error, not 5: the value 5 is below
the only output unit, so formatting yields the zero text `"0"`, which this
formatter cannot parse. -/
theorem claim_C1_counterexample :
    mkFormatter [(cs "x", .i 1), (cs "y", .i 1000)] [cs "y"] = .ok cexC1Fmt
    ∧ formatInt cexC1Fmt 5 1 (cs "0") = .ok (cs "0")
    ∧ parseInt cexC1Fmt (cs "0") = .error (.parseErr 0 (cs "0")) := by
  exact ⟨by decide, by decide, by decide⟩

/-- C2, counterexample: with the default formatter, `"5"` and `"1s"` each
parse, but `"5 1s"` is a parse error at index 0 — a bare number followed by
whitespace is NOT matched as the base unit, because the `(?!\D)` lookahead
requires a digit or end of input after the bare number. -/
theorem claim_C2_counterexample :
    parseInt defaultFmt (cs "5") = .ok 5000000
    ∧ parseInt defaultFmt (cs "1s") = .ok 1000000
    ∧ parseInt defaultFmt (cs "5 1s") = .error (.parseErr 0 (cs "5 1s")) := by
  exact ⟨by decide, by decide, by decide⟩

/-- C3, counterexample: three failures of additivity for single-token
strings.  (a) With the default formatter, `"5"` and `"1s"` are single
tokens but `"5 1s"` does not parse at all.  (b) With a unit of duration
`1/2`, each `"1h"` parses to 0 (truncation) but `"1h 1h"` parses to 1,
because the fractional carry is accumulated before a single truncation.
(c) With a unit name containing a space, `"1u"` and `"-3u"` parse to 1 and
−3, but their space-joined concatenation retokenizes as one token worth 5. -/
theorem claim_C3_counterexample :
    (parseInt defaultFmt (cs "5") = .ok 5000000
      ∧ parseInt defaultFmt (cs "1s") = .ok 1000000
      ∧ parseInt defaultFmt (cs "5 1s") = .error (.parseErr 0 (cs "5 1s")))
    ∧ (parseInt halfFmt (cs "1h") = .ok 0
      ∧ parseInt halfFmt (cs "1h 1h") = .ok 1)
    ∧ (parseInt spaceFmt (cs "1u") = .ok 1
      ∧ parseInt spaceFmt (cs "-3u") = .ok (-3)
      ∧ parseInt spaceFmt (cs "1u -3u") = .ok 5) := by
  exact ⟨⟨by decide, by decide, by decide⟩, ⟨by decide, by decide⟩,
    by decide, by decide, by decide⟩

/-- C4: for a negative input, `format_int` decomposes the absolute value and
re-applies the sign to every emitted part's numeral individually: the emitted
(count, unit) parts for `us < 0` are exactly those for `-us` with every count
negated; concretely, −86399 seconds renders as `"-23h -59m -59s"` (a minus
sign on each part, not one leading sign) and −10 days as `"-10d"`. -/
theorem claim_C4 :
    (∀ (F : Fmt) (us res : ℤ), us < 0 →
        signedParts F us res
          = (signedParts F (-us) res).map (fun ps => ps.map (fun p => (-p.1, p.2))))
    ∧ formatInt defaultFmt (-86399000000) 1 (cs "0") = .ok (cs "-23h -59m -59s")
    ∧ formatInt defaultFmt (-864000000000) 1 (cs "0") = .ok (cs "-10d") := by
  refine ⟨?_, by decide, by decide⟩
  intro F us res hus
  unfold signedParts
  rw [Int.natAbs_neg]
  cases hE : formatLoop F.fmtUnits us.natAbs 0 res with
  | error e => rfl
  | ok ps =>
    simp only [Except.map, List.map_map]
    congr 1
    apply List.map_congr_left
    intro p _
    simp only [Function.comp_apply]
    rw [if_neg (by omega), if_pos (by omega)]
    norm_num

/-- C4 witness at a concrete negative input. -/
theorem claim_C4_witness :
    signedParts defaultFmt (-86399000000) 1
      = (signedParts defaultFmt 86399000000 1).map
          (fun ps => ps.map (fun p => (-p.1, p.2))) := by
  have h := claim_C4.1 defaultFmt (-86399000000) 1 (by norm_num)
  norm_num at h
  exact h

theorem firstBad_none :
    ∀ durs : List (List Char × Dur), firstBad durs = none →
      ∀ p ∈ durs, durPos p.2 = true := by
  intro durs
  induction durs with
  | nil => intro _ p hp; cases hp
  | cons q rest ih =>
    intro h p hp
    rw [firstBad] at h
    by_cases hq : durPos q.2
    · rw [if_pos hq] at h
      rcases List.mem_cons.mp hp with hp | hp
      · rw [hp]; exact hq
      · exact ih h p hp
    · rw [if_neg hq] at h
      exact Option.noConfusion h

theorem assocFind_mem :
    ∀ (l : List (List Char × Dur)) k v, assocFind k l = some v → (k, v) ∈ l := by
  intro l
  induction l with
  | nil => intro k v h; exact Option.noConfusion h
  | cons q rest ih =>
    intro k v h
    rw [assocFind] at h
    by_cases hq : q.1 = k
    · rw [if_pos hq] at h
      have hqq : q = (k, v) := Prod.ext hq (Option.some.inj h)
      rw [hqq]
      exact List.mem_cons_self _ _
    · rw [if_neg hq] at h
      exact List.mem_cons_of_mem q (ih k v h)

theorem firstMissing_none :
    ∀ (fmts : List (List Char)) (durs : List (List Char × Dur)),
      firstMissing durs fmts = none → ∀ u ∈ fmts, (assocFind u durs).isSome = true := by
  intro fmts
  induction fmts with
  | nil => intro _ _ u hu; cases hu
  | cons q rest ih =>
    intro durs h u hu
    rw [firstMissing] at h
    by_cases hq : (assocFind q durs).isSome
    · rw [if_pos hq] at h
      rcases List.mem_cons.mp hu with hu | hu
      · rw [hu]; exact hq
      · exact ih durs h u hu
    · rw [if_neg hq] at h
      exact Option.noConfusion h

theorem durPos_normDur (d : Dur) : durPos (normDur d) = durPos d := by
  cases d with
  | i n => rfl
  | f x =>
    rw [normDur]
    by_cases h1 : x.den = 1
    · rw [if_pos h1]
      show decide (0 < x.num) = decide (0 < x)
      rw [decide_eq_decide]
      exact Rat.num_pos
    · rw [if_neg h1]

/-- Every output (name, duration) pair of a constructed formatter has a
positive duration and its name is an output unit the caller supplied. -/
theorem mk_fmtUnits_pos (durs : List (List Char × Dur)) (fmts : List (List Char)) (F : Fmt)
    (h : mkFormatter durs fmts = .ok F) :
    ∀ p ∈ F.fmtUnits, durPos p.2 = true := by
  rw [mkFormatter] at h
  cases hb : firstBad durs with
  | some u => rw [hb] at h; exact Except.noConfusion h
  | none =>
    rw [hb] at h
    replace h : mkFormatter2 (durs.map (fun p => (p.1, normDur p.2))) fmts = .ok F := h
    rw [mkFormatter2] at h
    cases hm : firstMissing (durs.map (fun p => (p.1, normDur p.2))) fmts with
    | some u => rw [hm] at h; exact Except.noConfusion h
    | none =>
      rw [hm] at h
      rw [← Except.ok.inj h]
      intro p hp
      rcases List.mem_map.mp hp with ⟨u, hu, hpu⟩
      have humem : u ∈ fmts := (List.mem_insertionSort _).mp hu
      have hsome := firstMissing_none fmts _ hm u humem
      cases hfind : assocFind u (durs.map (fun p => (p.1, normDur p.2))) with
      | none => rw [hfind] at hsome; exact Bool.noConfusion hsome
      | some v =>
        have hv : p.2 = v := by rw [← hpu, hfind]; rfl
        have hmem2 := assocFind_mem _ u v hfind
        rcases List.mem_map.mp hmem2 with ⟨q, hq, hqv⟩
        have hv2 : v = normDur q.2 := by
          have := congrArg Prod.snd hqv
          simpa using this.symm
        rw [hv, hv2, durPos_normDur]
        exact firstBad_none durs hb q hq

/-- In the decomposition loop, every emitted count is at least 1: a unit
whose duration exceeds the remaining magnitude is skipped before its
quotient is computed. -/
theorem formatLoop_pos :
    ∀ (units : List (List Char × Dur)) (mag frac : ℕ) (res : ℤ)
      (ps : List (ℕ × List Char)),
      (∀ p ∈ units, durPos p.2 = true) →
      formatLoop units mag frac res = .ok ps →
      ∀ p ∈ ps, 1 ≤ p.1 := by
  intro units
  induction units with
  | nil =>
    intro mag frac res ps _ h p hp
    have hnil : ps = [] := (Except.ok.inj h).symm
    rw [hnil] at hp
    cases hp
  | cons q rest ih =>
    intro mag frac res ps hpos h p hp
    obtain ⟨u, d⟩ := q
    have hdp : durPos d = true := hpos (u, d) (List.mem_cons_self _ _)
    cases d with
    | i n =>
      rw [formatLoop_cons_i] at h
      by_cases hres : (mag : ℤ) < res
      · rw [if_pos hres] at h
        rw [← Except.ok.inj h] at hp
        cases hp
      · rw [if_neg hres] at h
        by_cases hskip : durLtNat mag (Dur.i n)
        · rw [if_pos hskip] at h
          exact ih mag frac res ps (fun p hp2 => hpos p (List.mem_cons_of_mem _ hp2)) h p hp
        · rw [if_neg hskip] at h
          have hn : 0 < n := of_decide_eq_true hdp
          have hle : ¬ ((mag : ℤ) < n) := fun hc => hskip (decide_eq_true hc)
          have hnn : n.toNat ≤ mag := by omega
          cases hr : formatLoop rest (mag % n.toNat) frac res with
          | error e => rw [hr] at h; exact Except.noConfusion h
          | ok ps0 =>
            rw [hr] at h
            have hps : ps = (mag / n.toNat, u) :: ps0 := (Except.ok.inj h).symm
            rw [hps] at hp
            rcases List.mem_cons.mp hp with hp | hp
            · rw [hp]
              exact (Nat.one_le_div_iff (by omega)).mpr hnn
            · exact ih _ _ _ _ (fun p hp2 => hpos p (List.mem_cons_of_mem _ hp2)) hr p hp
    | f x =>
      rw [formatLoop_cons_f] at h
      by_cases hres : (mag : ℤ) < res
      · rw [if_pos hres] at h
        rw [← Except.ok.inj h] at hp
        cases hp
      · rw [if_neg hres] at h
        by_cases hskip : durLtNat mag (Dur.f x)
        · rw [if_pos hskip] at h
          exact ih mag frac res ps (fun p hp2 => hpos p (List.mem_cons_of_mem _ hp2)) h p hp
        · rw [if_neg hskip] at h
          have hxpos : 0 < x := of_decide_eq_true hdp
          have hle : ¬ ((mag : ℚ) < x) := fun hc => hskip (decide_eq_true hc)
          have hxm : x ≤ (mag : ℚ) := not_lt.mp hle
          have hnum : x.num ≤ (mag : ℤ) * (x.den : ℤ) := by
            have := Rat.le_def.mp hxm
            simpa using this
          have hnumpos : 0 < x.num := Rat.num_pos.mpr hxpos
          have hnum2 : x.num.toNat ≤ mag * x.den := by
            have : ((x.num.toNat : ℤ)) ≤ ((mag * x.den : ℕ) : ℤ) := by
              push_cast
              omega
            exact_mod_cast this
          by_cases hz : mag * x.den % x.num.toNat % x.den = 0
          · rw [if_pos hz] at h
            cases hr : formatLoop rest (mag * x.den % x.num.toNat / x.den) frac res with
            | error e => rw [hr] at h; exact Except.noConfusion h
            | ok ps0 =>
              rw [hr] at h
              have hps : ps = (mag * x.den / x.num.toNat, u) :: ps0 := (Except.ok.inj h).symm
              rw [hps] at hp
              rcases List.mem_cons.mp hp with hp | hp
              · rw [hp]
                exact (Nat.one_le_div_iff (by omega)).mpr hnum2
              · exact ih _ _ _ _ (fun p hp2 => hpos p (List.mem_cons_of_mem _ hp2)) hr p hp
          · rw [if_neg hz] at h
            by_cases hdv : x.num.toNat * 10 ^ 15 / x.den = 0
            · rw [if_pos hdv] at h
              exact Except.noConfusion h
            · rw [if_neg hdv] at h
              cases hr : formatLoop rest
                  ((mag * 10 ^ 15 + frac) % (x.num.toNat * 10 ^ 15 / x.den) / 10 ^ 15)
                  ((mag * 10 ^ 15 + frac) % (x.num.toNat * 10 ^ 15 / x.den) % 10 ^ 15) res with
              | error e => rw [hr] at h; exact Except.noConfusion h
              | ok ps0 =>
                rw [hr] at h
                have hps : ps = ((mag * 10 ^ 15 + frac) / (x.num.toNat * 10 ^ 15 / x.den), u)
                    :: ps0 := (Except.ok.inj h).symm
                rw [hps] at hp
                rcases List.mem_cons.mp hp with hp | hp
                · rw [hp]
                  have hdvle : x.num.toNat * 10 ^ 15 / x.den ≤ mag * 10 ^ 15 + frac := by
                    have h1 : x.num.toNat * 10 ^ 15 ≤ mag * x.den * 10 ^ 15 :=
                      Nat.mul_le_mul_right _ hnum2
                    have h2 : x.num.toNat * 10 ^ 15 / x.den ≤ mag * x.den * 10 ^ 15 / x.den :=
                      Nat.div_le_div_right h1
                    have h3 : mag * x.den * 10 ^ 15 / x.den = mag * 10 ^ 15 := by
                      rw [Nat.mul_right_comm, Nat.mul_div_cancel _ x.pos]
                    omega
                  exact (Nat.one_le_div_iff (Nat.pos_of_ne_zero hdv)).mpr hdvle
                · exact ih _ _ _ _ (fun p hp2 => hpos p (List.mem_cons_of_mem _ hp2)) hr p hp

/-- C8: every part emitted by `format_int` has a count of absolute value at
least 1, for every constructed formatter, every input and every resolution:
a zero-count part such as `"0h"` is never emitted, because a unit whose
duration exceeds the remaining magnitude is skipped before its quotient is
computed. -/
theorem claim_C8 (durs : List (List Char × Dur)) (fmts : List (List Char)) (F : Fmt)
    (us res : ℤ) (ps : List (ℤ × List Char))
    (hF : mkFormatter durs fmts = .ok F)
    (hps : signedParts F us res = .ok ps) :
    ∀ p ∈ ps, 1 ≤ p.1.natAbs := by
  unfold signedParts at hps
  cases hE : formatLoop F.fmtUnits us.natAbs 0 res with
  | error e => rw [hE] at hps; exact Except.noConfusion hps
  | ok ps0 =>
    rw [hE] at hps
    have hmap : ps = ps0.map (fun p => ((if 0 ≤ us then 1 else -1) * (p.1 : ℤ), p.2)) :=
      (Except.ok.inj hps).symm
    intro p hp
    rw [hmap] at hp
    rcases List.mem_map.mp hp with ⟨p0, hp0, hpp⟩
    have h1 := formatLoop_pos F.fmtUnits us.natAbs 0 res ps0
      (mk_fmtUnits_pos durs fmts F hF) hE p0 hp0
    have hfst : p.1 = (if 0 ≤ us then 1 else -1) * (p0.1 : ℤ) := by
      rw [← hpp]
    rw [hfst]
    by_cases hsgn : 0 ≤ us
    · rw [if_pos hsgn]; simp; omega
    · rw [if_neg hsgn]; simp; omega

set_option maxHeartbeats 2000000 in
/-- C8 witness at a concrete construction and input: the first part of
−86399 seconds under the default units has a nonzero count. -/
theorem claim_C8_witness :
    1 ≤ (((-23 : ℤ), cs "h") : ℤ × List Char).1.natAbs :=
  claim_C8
    [ (cs "us", .i 1), (cs "usec", .i 1), (cs "microseconds", .i 1),
      (cs "ms", .i 1000), (cs "msec", .i 1000), (cs "msecs", .i 1000),
      (cs "milliseconds", .i 1000),
      (cs "s", .i 1000000), (cs "sec", .i 1000000), (cs "secs", .i 1000000),
      (cs "second", .i 1000000), (cs "seconds", .i 1000000), (cs "", .i 1000000),
      (cs "m", .i 60000000), (cs "min", .i 60000000), (cs "mins", .i 60000000),
      (cs "minute", .i 60000000), (cs "minutes", .i 60000000),
      (cs "h", .i 3600000000), (cs "hr", .i 3600000000), (cs "hrs", .i 3600000000),
      (cs "hour", .i 3600000000), (cs "hours", .i 3600000000),
      (cs "d", .i 86400000000), (cs "day", .i 86400000000), (cs "days", .i 86400000000),
      (cs "w", .i 604800000000), (cs "week", .i 604800000000), (cs "weeks", .i 604800000000),
      (cs "M", .i 2629800000000), (cs "month", .i 2629800000000), (cs "months", .i 2629800000000),
      (cs "y", .i 31557600000000), (cs "yr", .i 31557600000000), (cs "yrs", .i 31557600000000),
      (cs "year", .i 31557600000000), (cs "years", .i 31557600000000) ]
    defaultFormatList defaultFmt (-86399000000) 1
    [((-23 : ℤ), cs "h"), ((-59 : ℤ), cs "m"), ((-59 : ℤ), cs "s")]
    (by decide) (by decide) ((-23 : ℤ), cs "h") (by decide)

/-- Characters of a decimal numeral are digits. -/
theorem digitChar_isDigit (d : ℕ) (h : d < 10) : (Nat.digitChar d).isDigit = true := by
  interval_cases d <;> decide

theorem digitChar_val (d : ℕ) (h : d < 10) : (Nat.digitChar d).toNat - 48 = d := by
  interval_cases d <;> decide

theorem natNumeral_digits (n : ℕ) : ∀ c ∈ natNumeral n, c.isDigit = true := by
  intro c hc
  rw [natNumeral] at hc
  by_cases h0 : n = 0
  · rw [if_pos h0] at hc
    rw [List.mem_singleton.mp hc]
    decide
  · rw [if_neg h0] at hc
    rcases List.mem_map.mp hc with ⟨d, hd, hdc⟩
    rw [natDigits_eq_digits] at hd
    have hd10 : d < 10 := Nat.digits_lt_base (by norm_num) (List.mem_reverse.mp hd)
    rw [← hdc]
    exact digitChar_isDigit d hd10

theorem natNumeral_ne_nil (n : ℕ) : natNumeral n ≠ [] := by
  rw [natNumeral]
  by_cases h0 : n = 0
  · rw [if_pos h0]; simp
  · rw [if_neg h0]
    intro hc
    have h1 : (natDigits n).reverse.map Nat.digitChar = [] := hc
    have h2 : natDigits n = [] := by
      rcases List.map_eq_nil_iff.mp h1 with h3
      simpa using List.reverse_eq_nil_iff.mp h3
    rw [natDigits_eq_digits] at h2
    exact h0 (Nat.digits_eq_nil_iff_eq_zero.mp h2)

theorem foldl_digitChars (l : List ℕ) (h : ∀ d ∈ l, d < 10) :
    ∀ a : ℕ, List.foldl (fun acc c => 10 * acc + (c.toNat - 48)) a (l.reverse.map Nat.digitChar)
      = a * 10 ^ l.length + Nat.ofDigits 10 l := by
  induction l with
  | nil => intro a; simp [Nat.ofDigits]
  | cons d L ih =>
    intro a
    rw [List.reverse_cons, List.map_append, List.foldl_append]
    rw [ih (fun x hx => h x (List.mem_cons_of_mem d hx)) a]
    simp only [List.map_cons, List.map_nil, List.foldl_cons, List.foldl_nil]
    rw [digitChar_val d (h d (List.mem_cons_self _ _))]
    rw [Nat.ofDigits_cons, List.length_cons, pow_succ]
    ring

/-- Round trip for numerals: reading back the decimal rendering of `n`
gives `n`. -/
theorem digitsVal_natNumeral (n : ℕ) : digitsVal (natNumeral n) = n := by
  rw [natNumeral]
  by_cases h0 : n = 0
  · rw [if_pos h0, h0]; decide
  · rw [if_neg h0, digitsVal, natDigits_eq_digits]
    rw [foldl_digitChars _ (fun d hd => Nat.digits_lt_base (by norm_num) hd) 0]
    rw [Nat.ofDigits_digits]
    ring

theorem not_space_of_digit (c : Char) (h : c.isDigit = true) : isPySpace c = false := by
  rw [isPySpace]
  have h1 : ('0' ≤ c ∧ c ≤ '9') := by
    rw [Char.isDigit] at h
    exact ⟨of_decide_eq_true (Bool.and_elim_left h), of_decide_eq_true (Bool.and_elim_right h)⟩
  simp only [Bool.or_eq_false_iff, beq_eq_false_iff_ne]
  refine ⟨⟨⟨⟨⟨?_, ?_⟩, ?_⟩, ?_⟩, ?_⟩, ?_⟩ <;>
    (intro hc; rw [hc] at h1; revert h1; decide)

theorem not_sign_of_digit (c : Char) (h : c.isDigit = true) : c ≠ '-' ∧ c ≠ '+' := by
  have h1 : ('0' ≤ c ∧ c ≤ '9') := by
    rw [Char.isDigit] at h
    exact ⟨of_decide_eq_true (Bool.and_elim_left h), of_decide_eq_true (Bool.and_elim_right h)⟩
  constructor <;> (intro hc; rw [hc] at h1; revert h1; decide)

theorem dropWhile_eq_self_of_head (p : Char → Bool) :
    ∀ l : List Char, (∀ c, l.head? = some c → p c = false) → l.dropWhile p = l := by
  intro l h
  cases l with
  | nil => rfl
  | cons c t =>
    rw [List.dropWhile_cons, h c rfl]
    simp

theorem all_not_space_pstrip (l : List Char) (h : ∀ c ∈ l, isPySpace c = false) :
    pstrip l = l := by
  have hdrop : ∀ m : List Char, (∀ c ∈ m, isPySpace c = false) → m.dropWhile isPySpace = m := by
    intro m hm
    apply dropWhile_eq_self_of_head
    intro c hc
    cases m with
    | nil => exact Option.noConfusion hc
    | cons a t =>
      exact (Option.some.inj hc) ▸ hm a (List.mem_cons_self _ _)
  rw [pstrip, hdrop l h, hdrop l.reverse (fun c hc => h c (List.mem_reverse.mp hc)),
    List.reverse_reverse]

theorem splitSign_of_not_sign (s : List Char)
    (h : ∀ c, s.head? = some c → c ≠ '-' ∧ c ≠ '+') : splitSign s = (false, s) := by
  unfold splitSign
  split
  next t => exact absurd rfl (h '-' rfl).1
  next t => exact absurd rfl (h '+' rfl).2
  next => rfl

theorem takeWhile_digits_split (A B : List Char)
    (hA : ∀ c ∈ A, c.isDigit = true)
    (hB : ∀ b, B.head? = some b → b.isDigit = false) :
    (A ++ B).takeWhile Char.isDigit = A ∧ (A ++ B).dropWhile Char.isDigit = B := by
  induction A with
  | nil =>
    simp only [List.nil_append]
    cases B with
    | nil => exact ⟨rfl, rfl⟩
    | cons b t =>
      rw [List.takeWhile_cons, List.dropWhile_cons, hB b rfl]
      simp
  | cons a A2 ih =>
    have ha : a.isDigit = true := hA a (List.mem_cons_self _ _)
    rw [List.cons_append, List.takeWhile_cons, List.dropWhile_cons, ha]
    have := ih (fun c hc => hA c (List.mem_cons_of_mem a hc))
    simp only [if_true]
    exact ⟨by rw [this.1], by rw [this.2]⟩

/-- Prefix tests. -/
theorem isPre_self_append (u : List Char) : ∀ B, isPre u (u ++ B) = true := by
  induction u with
  | nil => intro B; rfl
  | cons a t ih =>
    intro B
    rw [List.cons_append, isPre]
    simp [ih B]

theorem isPre_extend (k : List Char) :
    ∀ A B, isPre k A = true → isPre k (A ++ B) = true := by
  induction k with
  | nil => intro A B _; rfl
  | cons a t ih =>
    intro A B h
    cases A with
    | nil => exact absurd h (by rw [isPre]; simp)
    | cons b A2 =>
      rw [isPre] at h
      rcases Bool.and_eq_true_iff.mp h with ⟨h1, h2⟩
      rw [List.cons_append, isPre, h1]
      simpa using ih A2 B h2

theorem isPre_append_cons (k : List Char) :
    ∀ (A : List Char) (c : Char) (B : List Char), c ∉ k →
      isPre k (A ++ c :: B) = isPre k (A ++ [c]) := by
  induction k with
  | nil => intro A c B _; rfl
  | cons a t ih =>
    intro A c B hc
    cases A with
    | nil =>
      simp only [List.nil_append]
      rw [isPre, isPre]
      by_cases hac : a = c
      · exact absurd (hac ▸ List.mem_cons_self a t) hc
      · have : (a == c) = false := beq_eq_false_iff_ne.mpr hac
        rw [this]
        simp
    | cons b A2 =>
      simp only [List.cons_append]
      rw [isPre, isPre]
      have := ih A2 c B (fun hmem => hc (List.mem_cons_of_mem a hmem))
      rw [this]

/-- Check on the alternative list: every alternative tried before the
literal `u` is a literal that contains no space and is not a prefix of
`u ++ " "` (thus matches neither at the token `u` alone nor at `u`
followed by a space). -/
def litsBefore (alts : List UnitAlt) (u : List Char) : Bool :=
  match alts with
  | [] => false
  | .lit k :: rest =>
    if k = u then true
    else (!(isPre k (u ++ [' ']))) && (!(decide (' ' ∈ k))) && litsBefore rest u
  | _ => false

theorem firstAlt_of_litsBefore (u : List Char) :
    ∀ alts : List UnitAlt, litsBefore alts u = true →
      (∀ B, firstAlt alts (u ++ ' ' :: B) = some u) ∧ firstAlt alts u = some u := by
  intro alts
  induction alts with
  | nil => intro h; exact Bool.noConfusion h
  | cons a rest ih =>
    intro h
    cases a with
    | lit k =>
      rw [litsBefore] at h
      by_cases hk : k = u
      · subst hk
        constructor
        · intro B
          rw [firstAlt, isPre_self_append k (' ' :: B)]
          simp
        · rw [firstAlt]
          have hkk : isPre k k = true := by
            have := isPre_self_append k []
            simpa using this
          rw [hkk]
          simp
      · rw [if_neg hk] at h
        rcases Bool.and_eq_true_iff.mp h with ⟨h12, h3⟩
        rcases Bool.and_eq_true_iff.mp h12 with ⟨h1, h2⟩
        have hnp : isPre k (u ++ [' ']) = false := by
          cases hval : isPre k (u ++ [' ']) with
          | false => rfl
          | true => rw [hval] at h1; exact absurd h1 (by decide)
        have hsp : ' ' ∉ k := by
          intro hmem
          rw [decide_eq_true hmem] at h2
          exact absurd h2 (by decide)
        constructor
        · intro B
          rw [firstAlt]
          rw [isPre_append_cons k u ' ' B hsp, hnp]
          exact (ih h3).1 B
        · rw [firstAlt]
          have hpu : isPre k u = false := by
            cases hval : isPre k u with
            | false => rfl
            | true => rw [isPre_extend k u [' '] hval] at hnp; exact Bool.noConfusion hnp
          rw [hpu]
          exact (ih h3).2
    | bareNum => exact Bool.noConfusion h
    | plainEmpty => exact Bool.noConfusion h

theorem tryAlts_of_firstAlt_some (alts : List UnitAlt) (revDs tail name : List Char)
    (hne : revDs ≠ []) (hfa : firstAlt alts tail = some name) :
    tryAlts alts revDs tail = some (revDs.reverse, name, tail.drop name.length) := by
  cases revDs with
  | nil => exact absurd rfl hne
  | cons d rest => rw [tryAlts, hfa]

theorem mem_take_one_of_head (l : List Char) (c : Char) (h : l.head? = some c) :
    c ∈ l.take 1 := by
  cases l with
  | nil => exact Option.noConfusion h
  | cons a t =>
    rw [← Option.some.inj h]
    simp

/-- Core token-match lemma: matching at a rendered token `sign ++ digits ++
unit-name` captures the numeral's value, the name `u`, and leaves exactly the
trailing part. -/
theorem matchRaw_token (alts : List UnitAlt) (u : List Char) (mag : ℕ) (neg : Bool)
    (tailpart : List Char)
    (hfa : firstAlt alts (u ++ tailpart) = some u)
    (hud : ∀ c, (u ++ tailpart).head? = some c → c.isDigit = false) :
    matchRaw alts ((if neg then ['-'] else []) ++ natNumeral mag ++ (u ++ tailpart))
      = some ((if neg then -(mag : ℤ) else (mag : ℤ)), u, tailpart) := by
  rcases List.exists_cons_of_ne_nil (natNumeral_ne_nil mag) with ⟨c0, cs, hnum⟩
  have hsplit : splitSign ((if neg then ['-'] else []) ++ natNumeral mag ++ (u ++ tailpart))
      = (neg, natNumeral mag ++ (u ++ tailpart)) := by
    cases neg with
    | true => simp only [if_pos]; rfl
    | false =>
      simp only [if_neg, Bool.false_eq_true, not_false_iff, List.nil_append]
      apply splitSign_of_not_sign
      intro c hc
      rw [hnum] at hc
      have hc0 : c = c0 := (Option.some.inj hc).symm
      rw [hc0]
      apply not_sign_of_digit
      apply natNumeral_digits mag
      rw [hnum]
      exact List.mem_cons_self _ _
  have hdigits := takeWhile_digits_split (natNumeral mag) (u ++ tailpart)
    (natNumeral_digits mag) hud
  rw [matchRaw]
  simp only [hsplit]
  rw [hdigits.1, hdigits.2]
  have htry := tryAlts_of_firstAlt_some alts (natNumeral mag).reverse (u ++ tailpart) u
    (by simpa using natNumeral_ne_nil mag) hfa
  rw [htry]
  rw [List.reverse_reverse, List.drop_left]
  show some (if neg = true then -(digitsVal (natNumeral mag) : ℤ) else (digitsVal (natNumeral mag) : ℤ),
      u, tailpart) = some (if neg = true then -(mag : ℤ) else (mag : ℤ), u, tailpart)
  rw [digitsVal_natNumeral]

theorem intNumeral_eq (k : ℤ) :
    intNumeral k = (if decide (k < 0) then ['-'] else []) ++ natNumeral k.natAbs := by
  rw [intNumeral]
  by_cases h : k < 0
  · rw [if_pos h, if_pos (decide_eq_true h)]; rfl
  · rw [if_neg h, if_neg (by simpa using h)]; rfl

theorem signedVal_eq (k : ℤ) :
    (if decide (k < 0) then -(k.natAbs : ℤ) else (k.natAbs : ℤ)) = k := by
  by_cases h : k < 0
  · rw [if_pos (decide_eq_true h)]; omega
  · rw [if_neg (by simpa using h)]; omega

/-- Full match at a rendered token followed by nothing. -/
theorem matchAt_token_eos (alts : List UnitAlt) (u : List Char) (k : ℤ)
    (hfa : firstAlt alts u = some u)
    (hud : ∀ c ∈ u.take 1, c.isDigit = false) :
    matchAt alts (intNumeral k ++ u) = some (k, u, []) := by
  have h := matchRaw_token alts u k.natAbs (decide (k < 0)) []
    (by rw [List.append_nil]; exact hfa)
    (by
      intro c hc
      rw [List.append_nil] at hc
      exact hud c (mem_take_one_of_head u c hc))
  rw [List.append_nil] at h
  rw [matchAt, intNumeral_eq, h]
  show some ((if decide (k < 0) then -(k.natAbs : ℤ) else (k.natAbs : ℤ)), u, ([] : List Char))
      = some (k, u, [])
  rw [signedVal_eq]

/-- Full match at a rendered token followed by a space and more input whose
first character is not whitespace: the `\s*` eats exactly the one space. -/
theorem matchAt_token_sp (alts : List UnitAlt) (u : List Char) (k : ℤ) (B : List Char)
    (hfa : ∀ B2, firstAlt alts (u ++ ' ' :: B2) = some u)
    (hud : ∀ c ∈ u.take 1, c.isDigit = false)
    (hune : u ≠ [])
    (hB : ∀ c, B.head? = some c → isPySpace c = false) :
    matchAt alts (intNumeral k ++ u ++ ' ' :: B) = some (k, u, B) := by
  have h := matchRaw_token alts u k.natAbs (decide (k < 0)) (' ' :: B)
    (hfa B)
    (by
      intro c hc
      rcases List.exists_cons_of_ne_nil hune with ⟨c1, u2, hu⟩
      subst hu
      rw [List.cons_append] at hc
      have hcc : c1 = c := Option.some.inj hc
      rw [← hcc]
      exact hud c1 (by simp))
  rw [matchAt, intNumeral_eq]
  rw [List.append_assoc ((if decide (k < 0) then ['-'] else []) ++ natNumeral k.natAbs) u (' ' :: B)]
  rw [h]
  have hdw : (' ' :: B).dropWhile isPySpace = B := by
    rw [List.dropWhile_cons]
    have hsp : isPySpace ' ' = true := by decide
    rw [hsp]
    simp only [if_true]
    exact dropWhile_eq_self_of_head isPySpace B hB
  show some ((if decide (k < 0) then -(k.natAbs : ℤ) else (k.natAbs : ℤ)), u,
      List.dropWhile isPySpace (' ' :: B)) = some (k, u, B)
  rw [hdw, signedVal_eq]

theorem intNumeral_ne_nil (k : ℤ) : intNumeral k ≠ [] := by
  rw [intNumeral]
  by_cases h : k < 0
  · rw [if_pos h]; simp
  · rw [if_neg h]; exact natNumeral_ne_nil _

theorem head?_append_left (l l2 : List Char) (h : l ≠ []) : (l ++ l2).head? = l.head? := by
  cases l with
  | nil => exact absurd rfl h
  | cons c t => rfl

theorem intNumeral_head_not_space (k : ℤ) :
    ∀ c, (intNumeral k).head? = some c → isPySpace c = false := by
  intro c hc
  rw [intNumeral] at hc
  by_cases h : k < 0
  · rw [if_pos h] at hc
    rw [← Option.some.inj hc]
    decide
  · rw [if_neg h] at hc
    rcases List.exists_cons_of_ne_nil (natNumeral_ne_nil k.natAbs) with ⟨c0, cs, hnum⟩
    rw [hnum] at hc
    rw [← Option.some.inj hc]
    exact not_space_of_digit c0 (natNumeral_digits _ c0 (by rw [hnum]; exact List.mem_cons_self _ _))

theorem renderParts_nil : renderParts [] = [] := rfl

theorem renderParts_single (p : ℤ × List Char) :
    renderParts [p] = intNumeral p.1 ++ p.2 := rfl

theorem renderParts_cons₂ (p q : ℤ × List Char) (ps : List (ℤ × List Char)) :
    renderParts (p :: q :: ps) = (intNumeral p.1 ++ p.2) ++ ' ' :: renderParts (q :: ps) := rfl

theorem renderParts_ne_nil (p : ℤ × List Char) (ps : List (ℤ × List Char)) :
    renderParts (p :: ps) ≠ [] := by
  cases ps with
  | nil =>
    rw [renderParts_single]
    intro hc
    exact intNumeral_ne_nil p.1 (List.append_eq_nil.mp hc).1
  | cons q ps2 =>
    rw [renderParts_cons₂]
    intro hc
    exact intNumeral_ne_nil p.1 ((List.append_eq_nil.mp (List.append_eq_nil.mp hc).1).1)

theorem renderParts_head_not_space (p : ℤ × List Char) (ps : List (ℤ × List Char)) :
    ∀ c, (renderParts (p :: ps)).head? = some c → isPySpace c = false := by
  intro c hc
  have hshape : ∃ X, renderParts (p :: ps) = intNumeral p.1 ++ (p.2 ++ X) := by
    cases ps with
    | nil => exact ⟨[], by rw [renderParts_single, List.append_nil]⟩
    | cons q ps2 => exact ⟨' ' :: renderParts (q :: ps2), by
        rw [renderParts_cons₂, List.append_assoc]⟩
  rcases hshape with ⟨X, hX⟩
  rw [hX, head?_append_left _ _ (intNumeral_ne_nil p.1)] at hc
  exact intNumeral_head_not_space p.1 c hc

theorem renderParts_rev_head_not_space :
    ∀ (ps : List (ℤ × List Char)),
      (∀ p ∈ ps, p.2 ≠ [] ∧ ∀ c ∈ p.2, isPySpace c = false) →
      ∀ c, (renderParts ps).reverse.head? = some c → isPySpace c = false := by
  intro ps
  induction ps with
  | nil => intro _ c hc; exact Option.noConfusion hc
  | cons p ps ih =>
    intro hps c hc
    cases ps with
    | nil =>
      rw [renderParts_single, List.reverse_append] at hc
      have hu := hps p (List.mem_cons_self _ _)
      rw [head?_append_left _ _ (by rw [Ne, List.reverse_eq_nil_iff]; exact hu.1)] at hc
      have hmem : c ∈ p.2.reverse := List.mem_of_mem_head? (Option.mem_def.mpr hc)
      exact hu.2 c (List.mem_reverse.mp hmem)
    | cons q ps2 =>
      rw [renderParts_cons₂, List.reverse_append, List.reverse_cons, List.append_assoc] at hc
      rw [head?_append_left _ _ (by
        rw [Ne, List.reverse_eq_nil_iff]
        exact renderParts_ne_nil q ps2)] at hc
      exact ih (fun r hr => hps r (List.mem_cons_of_mem p hr)) c hc

theorem pstrip_eq_self_of_ends (l : List Char)
    (h1 : ∀ c, l.head? = some c → isPySpace c = false)
    (h2 : ∀ c, l.reverse.head? = some c → isPySpace c = false) :
    pstrip l = l := by
  rw [pstrip, dropWhile_eq_self_of_head isPySpace l h1,
    dropWhile_eq_self_of_head isPySpace l.reverse h2, List.reverse_reverse]

/-- Integer duration registered for a unit name (0 if absent or float). -/
def intDurOf (durs : List (List Char × Dur)) (u : List Char) : ℤ :=
  match assocFind u durs with
  | some (.i n) => n
  | _ => 0

/-- Total microsecond value of a list of (count, unit) tokens. -/
def tokSum (durs : List (List Char × Dur)) (ps : List (ℤ × List Char)) : ℤ :=
  (ps.map (fun p => p.1 * intDurOf durs p.2)).sum

theorem tokSum_nil (durs : List (List Char × Dur)) : tokSum durs [] = 0 := rfl

theorem tokSum_cons (durs : List (List Char × Dur)) (p : ℤ × List Char)
    (ps : List (ℤ × List Char)) :
    tokSum durs (p :: ps) = p.1 * intDurOf durs p.2 + tokSum durs ps := by
  rw [tokSum, List.map_cons, List.sum_cons, tokSum]

/-- Conditions under which a (count, unit) token round-trips through the
tokenizer of the pattern `alts` against the registry `durs`. -/
def GoodPart (alts : List UnitAlt) (durs : List (List Char × Dur)) (p : ℤ × List Char) : Prop :=
  litsBefore alts p.2 = true ∧ p.2 ≠ []
  ∧ (∀ c ∈ p.2.take 1, c.isDigit = false)
  ∧ (∀ c ∈ p.2, isPySpace c = false)
  ∧ (∃ n : ℤ, assocFind p.2 durs = some (.i n))

/-- Scanning a rendered token list accumulates exactly the token sum: the
core of the round-trip argument. -/
theorem parseGo_render (alts : List UnitAlt) (durs : List (List Char × Dur)) :
    ∀ (ps : List (ℤ × List Char)), (∀ p ∈ ps, GoodPart alts durs p) →
    ∀ (fuel pos : ℕ) (acc : ℤ) (carry : ℚ), (renderParts ps).length ≤ fuel →
      parseGo alts durs fuel (renderParts ps) pos acc carry
        = .ok (acc + tokSum durs ps + ratTrunc carry) := by
  intro ps
  induction ps with
  | nil =>
    intro _ fuel pos acc carry _
    rw [renderParts_nil, parseGo_nil, tokSum_nil, add_zero]
  | cons p ps ih =>
    intro hgood fuel pos acc carry hfuel
    rcases hgood p (List.mem_cons_self _ _) with ⟨hlits, hune, hud, hnos, n, hfind⟩
    have hi : intDurOf durs p.2 = n := by rw [intDurOf, hfind]
    cases ps with
    | nil =>
      have hm : matchAt alts (renderParts [p]) = some (p.1, p.2, []) := by
        rw [renderParts_single]
        exact matchAt_token_eos alts p.2 p.1 (firstAlt_of_litsBefore p.2 alts hlits).2 hud
      rcases List.exists_cons_of_ne_nil (renderParts_ne_nil p []) with ⟨c, rem, hcons⟩
      rw [hcons] at hm hfuel ⊢
      cases fuel with
      | zero => simp at hfuel
      | succ fuel0 =>
        rw [parseGo_cons_eq alts durs fuel0 c rem pos acc carry p.1 p.2 [] hm, hfind]
        show parseGo alts durs fuel0 []
            (pos + ((c :: rem).length - ([] : List Char).length)) (acc + p.1 * n) carry = _
        rw [parseGo_nil, tokSum_cons, tokSum_nil, hi, add_zero]
    | cons q ps2 =>
      have hm : matchAt alts (renderParts (p :: q :: ps2))
          = some (p.1, p.2, renderParts (q :: ps2)) := by
        rw [renderParts_cons₂, List.append_assoc]
        rw [← List.append_assoc (intNumeral p.1) p.2 (' ' :: renderParts (q :: ps2))]
        exact matchAt_token_sp alts p.2 p.1 (renderParts (q :: ps2))
          (fun B2 => (firstAlt_of_litsBefore p.2 alts hlits).1 B2) hud hune
          (renderParts_head_not_space q ps2)
      have hlen : (renderParts (p :: q :: ps2)).length
          = (intNumeral p.1).length + p.2.length + 1 + (renderParts (q :: ps2)).length := by
        rw [renderParts_cons₂]
        simp [List.length_append, List.length_cons]
        omega
      have hnum1 : 1 ≤ (intNumeral p.1).length :=
        List.length_pos.mpr (intNumeral_ne_nil p.1)
      rcases List.exists_cons_of_ne_nil (renderParts_ne_nil p (q :: ps2)) with ⟨c, rem, hcons⟩
      rw [hcons] at hm hfuel hlen ⊢
      cases fuel with
      | zero => simp at hfuel
      | succ fuel0 =>
        rw [parseGo_cons_eq alts durs fuel0 c rem pos acc carry p.1 p.2
          (renderParts (q :: ps2)) hm, hfind]
        show parseGo alts durs fuel0 (renderParts (q :: ps2))
            (pos + ((c :: rem).length - (renderParts (q :: ps2)).length))
            (acc + p.1 * n) carry = _
        rw [ih (fun r hr => hgood r (List.mem_cons_of_mem p hr)) fuel0 _ (acc + p.1 * n) carry
          (by simp only [List.length_cons] at hfuel hlen; omega)]
        rw [tokSum_cons durs p (q :: ps2), hi]
        congr 1
        ring

/-- With all-integer positive unit durations, resolution 1, and a smallest
unit of exactly one microsecond, the decomposition loop succeeds and its
parts (annotated here with their integer durations) sum back to the
magnitude exactly. -/
theorem formatLoop_int_one :
    ∀ (units : List (List Char × Dur)) (mag frac : ℕ),
      (∀ p ∈ units, ∃ n : ℤ, p.2 = .i n ∧ 1 ≤ n) →
      (units.map Prod.snd).getLast? = some (.i 1) →
      ∃ aps : List (ℕ × List Char × ℤ),
        formatLoop units mag frac 1 = .ok (aps.map (fun t => (t.1, t.2.1)))
        ∧ (aps.map (fun t => t.1 * t.2.2.toNat)).sum = mag
        ∧ ∀ t ∈ aps, (t.2.1, Dur.i t.2.2) ∈ units ∧ 1 ≤ t.1 ∧ 1 ≤ t.2.2 := by
  intro units
  induction units with
  | nil =>
    intro mag frac _ hlast
    exact absurd hlast (by simp)
  | cons p rest ih =>
    intro mag frac hall hlast
    obtain ⟨u, d⟩ := p
    rcases hall (u, d) (List.mem_cons_self _ _) with ⟨n, hd, hn⟩
    have hd2 : d = Dur.i n := hd
    subst hd2
    rw [formatLoop_cons_i]
    by_cases hres : ((mag : ℤ) < 1)
    · rw [if_pos hres]
      refine ⟨[], by simp, by simp; omega, by simp⟩
    · rw [if_neg hres]
      by_cases hskip : durLtNat mag (Dur.i n)
      · rw [if_pos hskip]
        have hlt : (mag : ℤ) < n := of_decide_eq_true hskip
        cases rest with
        | nil =>
          have hn1 : Dur.i n = Dur.i 1 := by simpa using hlast
          have : n = 1 := Dur.i.inj hn1
          omega
        | cons r2 rest2 =>
          have hlast2 : ((r2 :: rest2).map Prod.snd).getLast? = some (.i 1) := by
            simpa [List.getLast?_cons_cons] using hlast
          rcases ih mag frac (fun q hq => hall q (List.mem_cons_of_mem _ hq)) hlast2 with
            ⟨aps, h1, h2, h3⟩
          exact ⟨aps, h1, h2, fun t ht =>
            ⟨List.mem_cons_of_mem _ (h3 t ht).1, (h3 t ht).2.1, (h3 t ht).2.2⟩⟩
      · rw [if_neg hskip]
        have hnlt : ¬ ((mag : ℤ) < n) := fun hc => hskip (by rw [durLtNat]; exact decide_eq_true hc)
        have hton : n.toNat ≤ mag := by omega
        have htonpos : 0 < n.toNat := by omega
        cases rest with
        | nil =>
          have hn1 : Dur.i n = Dur.i 1 := by simpa using hlast
          have hne1 : n = 1 := Dur.i.inj hn1
          refine ⟨[(mag / n.toNat, u, n)], ?_, ?_, ?_⟩
          · rfl
          · subst hne1
            simp
          · intro t ht
            rw [List.mem_singleton.mp ht]
            refine ⟨List.mem_cons_self _ _, ?_, hn⟩
            exact (Nat.one_le_div_iff htonpos).mpr hton
        | cons r2 rest2 =>
          have hlast2 : ((r2 :: rest2).map Prod.snd).getLast? = some (.i 1) := by
            simpa [List.getLast?_cons_cons] using hlast
          rcases ih (mag % n.toNat) frac (fun q hq => hall q (List.mem_cons_of_mem _ hq))
            hlast2 with ⟨aps, h1, h2, h3⟩
          refine ⟨(mag / n.toNat, u, n) :: aps, ?_, ?_, ?_⟩
          · rw [h1]
            rfl
          · simp only [List.map_cons, List.sum_cons, h2]
            rw [Nat.mul_comm]
            exact Nat.div_add_mod mag n.toNat
          · intro t ht
            rcases List.mem_cons.mp ht with ht | ht
            · rw [ht]
              refine ⟨List.mem_cons_self _ _, ?_, hn⟩
              exact (Nat.one_le_div_iff htonpos).mpr hton
            · exact ⟨List.mem_cons_of_mem _ (h3 t ht).1, (h3 t ht).2.1, (h3 t ht).2.2⟩

theorem ratTrunc_zero : ratTrunc 0 = 0 := by decide

theorem default_fmtUnits_eq :
    defaultFmt.fmtUnits = [(cs "y", Dur.i 31557600000000), (cs "M", Dur.i 2629800000000),
      (cs "d", Dur.i 86400000000), (cs "h", Dur.i 3600000000), (cs "m", Dur.i 60000000),
      (cs "s", Dur.i 1000000), (cs "ms", Dur.i 1000), (cs "us", Dur.i 1)] := by decide

theorem default_units_int :
    ∀ p ∈ defaultFmt.fmtUnits, ∃ n : ℤ, p.2 = Dur.i n ∧ 1 ≤ n := by
  intro p hp
  rw [default_fmtUnits_eq] at hp
  simp only [List.mem_cons, List.not_mem_nil, or_false] at hp
  rcases hp with rfl | rfl | rfl | rfl | rfl | rfl | rfl | rfl <;> exact ⟨_, rfl, by norm_num⟩

theorem default_unit_facts (u : List Char) (d : ℤ)
    (h : (u, Dur.i d) ∈ defaultFmt.fmtUnits) :
    litsBefore defaultFmt.alts u = true ∧ u ≠ []
    ∧ (∀ c ∈ u.take 1, c.isDigit = false)
    ∧ (∀ c ∈ u, isPySpace c = false)
    ∧ assocFind u defaultFmt.durs = some (Dur.i d) := by
  rw [default_fmtUnits_eq] at h
  simp only [List.mem_cons, List.not_mem_nil, or_false, Prod.mk.injEq] at h
  rcases h with ⟨rfl, h2⟩ | ⟨rfl, h2⟩ | ⟨rfl, h2⟩ | ⟨rfl, h2⟩ | ⟨rfl, h2⟩ | ⟨rfl, h2⟩
    | ⟨rfl, h2⟩ | ⟨rfl, h2⟩ <;> (obtain rfl := Dur.i.inj h2; decide)

theorem tokSum_signed (durs : List (List Char × Dur)) (sign : ℤ) :
    ∀ aps : List (ℕ × List Char × ℤ),
      (∀ t ∈ aps, assocFind t.2.1 durs = some (Dur.i t.2.2) ∧ 1 ≤ t.2.2) →
      tokSum durs ((aps.map (fun t => (t.1, t.2.1))).map
          (fun p => (sign * (p.1 : ℤ), p.2)))
        = sign * (((aps.map (fun t => t.1 * t.2.2.toNat)).sum : ℕ) : ℤ) := by
  intro aps
  induction aps with
  | nil => intro _; simp [tokSum]
  | cons t aps2 ih =>
    intro hf
    rcases hf t (List.mem_cons_self _ _) with ⟨hfind, hpos⟩
    have hi : intDurOf durs t.2.1 = t.2.2 := by rw [intDurOf, hfind]
    simp only [List.map_cons]
    rw [tokSum_cons, hi, ih (fun r hr => hf r (List.mem_cons_of_mem _ hr))]
    simp only [List.sum_cons]
    push_cast
    rw [Int.toNat_of_nonneg (by omega)]
    ring

/-- C1, amended to the default formatter: parsing the result of formatting
any integer microsecond value at resolution 1 returns the value exactly. -/
theorem claim_C1 (v : ℤ) (s : List Char)
    (h : formatInt defaultFmt v 1 (cs "0") = .ok s) :
    parseInt defaultFmt s = .ok v := by
  rw [formatInt, if_neg (by decide : ¬ (defaultFmt.fmtUnits = [])), signedParts] at h
  rcases formatLoop_int_one defaultFmt.fmtUnits v.natAbs 0 default_units_int
    (by decide) with ⟨aps, h1, h2, h3⟩
  rw [h1] at h
  have hs : (fun ps => if ps = [] then cs "0" else renderParts ps)
      ((aps.map (fun t => (t.1, t.2.1))).map
        (fun p => ((if 0 ≤ v then 1 else -1) * (p.1 : ℤ), p.2))) = s := Except.ok.inj h
  cases haps : aps with
  | nil =>
    rw [haps] at hs h2
    have hs0 : s = cs "0" := by rw [← hs]; rfl
    have hv0 : v = 0 := by
      simp at h2
      omega
    rw [hs0, hv0]
    decide
  | cons a aps2 =>
    rw [haps] at hs h2 h3
    set sign : ℤ := if 0 ≤ v then 1 else -1 with hsign
    set sparts := (((a :: aps2).map (fun t => (t.1, t.2.1))).map
      (fun p => (sign * (p.1 : ℤ), p.2))) with hsparts
    have hsne : sparts = (sign * (a.1 : ℤ), a.2.1) ::
        ((aps2.map (fun t => (t.1, t.2.1))).map (fun p => (sign * (p.1 : ℤ), p.2))) := by
      rw [hsparts]
      simp
    have hs2 : s = renderParts sparts := by
      rw [← hs]
      show (if sparts = [] then cs "0" else renderParts sparts) = renderParts sparts
      rw [if_neg]
      rw [hsne]
      simp
    have hfacts : ∀ t ∈ a :: aps2, litsBefore defaultFmt.alts t.2.1 = true ∧ t.2.1 ≠ []
        ∧ (∀ c ∈ t.2.1.take 1, c.isDigit = false)
        ∧ (∀ c ∈ t.2.1, isPySpace c = false)
        ∧ assocFind t.2.1 defaultFmt.durs = some (Dur.i t.2.2) := by
      intro t ht
      exact default_unit_facts t.2.1 t.2.2 (h3 t ht).1
    have hgood : ∀ p ∈ sparts, GoodPart defaultFmt.alts defaultFmt.durs p := by
      intro p hp
      rw [hsparts] at hp
      rcases List.mem_map.mp hp with ⟨p0, hp0, hpp⟩
      rcases List.mem_map.mp hp0 with ⟨t, ht, hpt⟩
      rcases hfacts t ht with ⟨f1, f2, f3, f4, f5⟩
      have hp2 : p.2 = t.2.1 := by rw [← hpp, ← hpt]
      exact ⟨hp2 ▸ f1, hp2 ▸ f2, hp2 ▸ f3, hp2 ▸ f4, t.2.2, hp2 ▸ f5⟩
    have hpartsok : ∀ p ∈ sparts, p.2 ≠ [] ∧ ∀ c ∈ p.2, isPySpace c = false := by
      intro p hp
      rcases hgood p hp with ⟨_, f2, _, f4, _⟩
      exact ⟨f2, f4⟩
    have hstrip : pstrip s = s := by
      rw [hs2, hsne]
      exact pstrip_eq_self_of_ends _
        (renderParts_head_not_space _ _)
        (renderParts_rev_head_not_space _ (by rw [← hsne]; exact hpartsok))
    rw [parseInt, hstrip, hs2, hsne]
    rw [← hsne]
    rw [parseGo_render defaultFmt.alts defaultFmt.durs sparts hgood
      (renderParts sparts).length 0 0 0 le_rfl]
    rw [hsparts]
    rw [tokSum_signed defaultFmt.durs sign (a :: aps2)
      (fun t ht => ⟨(hfacts t ht).2.2.2.2, (h3 t ht).2.2⟩)]
    rw [h2, ratTrunc_zero]
    have hva : (v.natAbs : ℤ) = sign * v := by
      rw [hsign]
      by_cases hv : 0 ≤ v
      · rw [if_pos hv]; omega
      · rw [if_neg hv]; omega
    rw [hva]
    have : sign * (sign * v) = v := by
      rw [hsign]
      by_cases hv : 0 ≤ v
      · rw [if_pos hv]; ring
      · rw [if_neg hv]; ring
    rw [this]
    simp

/-- C1 witness at a concrete value exercising several units. -/
theorem claim_C1_witness : parseInt defaultFmt (cs "1h 1m 1s 1us") = .ok 3661000001 :=
  claim_C1 3661000001 (cs "1h 1m 1s 1us") (by decide)

theorem single_token_parse (F : Fmt) (r : ℤ × List Char) (hr : GoodPart F.alts F.durs r) :
    parseInt F (renderParts [r]) = .ok (r.1 * intDurOf F.durs r.2) := by
  have hgood : ∀ x ∈ [r], GoodPart F.alts F.durs x := by
    intro x hx
    obtain rfl := List.mem_singleton.mp hx
    exact hr
  have hstrip : pstrip (renderParts [r]) = renderParts [r] :=
    pstrip_eq_self_of_ends _ (renderParts_head_not_space r [])
      (renderParts_rev_head_not_space [r] (fun x hx => by
        obtain rfl := List.mem_singleton.mp hx
        exact ⟨hr.2.1, hr.2.2.2.1⟩))
  rw [parseInt, hstrip, parseGo_render F.alts F.durs [r] hgood _ 0 0 0 le_rfl]
  rw [tokSum_cons, tokSum_nil, ratTrunc_zero]
  norm_num

/-- C3, amended: additivity holds for single tokens whose unit names are
nonempty, space-free, do not start with a digit, resolve to an integer
duration, and are preceded in the alternation only by literal alternatives
that do not capture a proper prefix of the token's tail (all true of every
default unit); the counterexamples show it fails for the bare (empty) unit,
for float durations, and for names containing spaces. -/
theorem claim_C3 (F : Fmt) (p q : ℤ × List Char)
    (hp : GoodPart F.alts F.durs p) (hq : GoodPart F.alts F.durs q) :
    ∃ va vb : ℤ,
      parseInt F (renderParts [p]) = .ok va
      ∧ parseInt F (renderParts [q]) = .ok vb
      ∧ parseInt F (renderParts [p] ++ ' ' :: renderParts [q]) = .ok (va + vb) := by
  refine ⟨p.1 * intDurOf F.durs p.2, q.1 * intDurOf F.durs q.2,
    single_token_parse F p hp, single_token_parse F q hq, ?_⟩
  have hjoin : renderParts [p] ++ ' ' :: renderParts [q] = renderParts [p, q] := by
    rw [renderParts_cons₂, renderParts_single]
  have hgood : ∀ x ∈ [p, q], GoodPart F.alts F.durs x := by
    intro x hx
    rcases List.mem_cons.mp hx with rfl | hx2
    · exact hp
    · obtain rfl := List.mem_singleton.mp hx2
      exact hq
  have hok : ∀ x ∈ [p, q], x.2 ≠ [] ∧ ∀ c ∈ x.2, isPySpace c = false := by
    intro x hx
    rcases hgood x hx with ⟨_, f2, _, f4, _⟩
    exact ⟨f2, f4⟩
  have hstrip : pstrip (renderParts [p, q]) = renderParts [p, q] :=
    pstrip_eq_self_of_ends _ (renderParts_head_not_space p [q])
      (renderParts_rev_head_not_space [p, q] hok)
  rw [hjoin, parseInt, hstrip, parseGo_render F.alts F.durs [p, q] hgood _ 0 0 0 le_rfl]
  rw [tokSum_cons, tokSum_cons, tokSum_nil, ratTrunc_zero]
  norm_num

/-- C3 witness: 5 seconds and 3 days, separately and space-joined. -/
theorem claim_C3_witness :
    ∃ va vb : ℤ,
      parseInt defaultFmt (renderParts [((5 : ℤ), cs "s")]) = .ok va
      ∧ parseInt defaultFmt (renderParts [((3 : ℤ), cs "d")]) = .ok vb
      ∧ parseInt defaultFmt (renderParts [((5 : ℤ), cs "s")]
          ++ ' ' :: renderParts [((3 : ℤ), cs "d")]) = .ok (va + vb) :=
  claim_C3 defaultFmt ((5 : ℤ), cs "s") ((3 : ℤ), cs "d")
    ⟨by decide, by decide, by decide, by decide, 1000000, by decide⟩
    ⟨by decide, by decide, by decide, by decide, 86400000000, by decide⟩

/-- The unit name captured when an alternative of the alternation matches. -/
def altName : UnitAlt → List Char
  | .lit u => u
  | .bareNum => []
  | .plainEmpty => []

theorem firstAlt_name : ∀ (alts : List UnitAlt) (s u : List Char),
    firstAlt alts s = some u → ∃ a ∈ alts, altName a = u := by
  intro alts
  induction alts with
  | nil => intro s u h; exact Option.noConfusion h
  | cons a rest ih =>
    intro s u h
    cases a with
    | lit k =>
      replace h : (if isPre k s = true then some k else firstAlt rest s) = some u := h
      by_cases hp : isPre k s = true
      · rw [if_pos hp] at h
        exact ⟨.lit k, List.mem_cons_self _ _, Option.some.inj h⟩
      · rw [if_neg hp] at h
        rcases ih s u h with ⟨a0, ha, hn⟩
        exact ⟨a0, List.mem_cons_of_mem _ ha, hn⟩
    | bareNum =>
      replace h : (if bareOk s = true then some ([] : List Char) else firstAlt rest s)
          = some u := h
      by_cases hb : bareOk s = true
      · rw [if_pos hb] at h
        exact ⟨.bareNum, List.mem_cons_self _ _, Option.some.inj h⟩
      · rw [if_neg hb] at h
        rcases ih s u h with ⟨a0, ha, hn⟩
        exact ⟨a0, List.mem_cons_of_mem _ ha, hn⟩
    | plainEmpty =>
      replace h : some ([] : List Char) = some u := h
      exact ⟨.plainEmpty, List.mem_cons_self _ _, Option.some.inj h⟩

theorem tryAlts_name (alts : List UnitAlt) : ∀ (revDs tail used u rest : List Char),
    tryAlts alts revDs tail = some (used, u, rest) → ∃ a ∈ alts, altName a = u := by
  intro revDs
  induction revDs with
  | nil => intro tail used u rest h; exact Option.noConfusion h
  | cons d ds ih =>
    intro tail used u rest h
    rw [tryAlts] at h
    cases hfa : firstAlt alts tail with
    | some name =>
      rw [hfa] at h
      replace h : some ((d :: ds).reverse, name, tail.drop name.length)
          = some (used, u, rest) := h
      have hu : name = u := congrArg (fun t => t.2.1) (Option.some.inj h)
      exact hu ▸ firstAlt_name alts tail name hfa
    | none =>
      rw [hfa] at h
      by_cases hde : ds.isEmpty = true
      · rw [if_pos hde] at h; exact Option.noConfusion h
      · rw [if_neg hde] at h; exact ih (d :: tail) used u rest h

theorem matchAt_name (alts : List UnitAlt) (s : List Char) (k : ℤ) (u rest : List Char)
    (h : matchAt alts s = some (k, u, rest)) : ∃ a ∈ alts, altName a = u := by
  unfold matchAt at h
  cases hm : matchRaw alts s with
  | none => rw [hm] at h; exact Option.noConfusion h
  | some trip =>
    rw [hm] at h
    obtain ⟨v0, n0, r0⟩ := trip
    have hu : n0 = u := congrArg (fun t => t.2.1) (Option.some.inj h)
    simp only [matchRaw] at hm
    cases ht : tryAlts alts (((splitSign s).2.takeWhile Char.isDigit).reverse)
        ((splitSign s).2.dropWhile Char.isDigit) with
    | none => rw [ht] at hm; exact Option.noConfusion hm
    | some w =>
      rw [ht] at hm
      obtain ⟨used0, name0, rest0⟩ := w
      replace hm : some (if (splitSign s).1 then -(digitsVal used0 : ℤ)
          else (digitsVal used0 : ℤ), name0, rest0) = some (v0, n0, r0) := hm
      have hn : name0 = n0 := congrArg (fun t => t.2.1) (Option.some.inj hm)
      rcases tryAlts_name alts _ _ used0 name0 rest0 ht with ⟨a, ha, hna⟩
      exact ⟨a, ha, by rw [hna, hn, hu]⟩

theorem matchAt_nil (alts : List UnitAlt) : matchAt alts [] = none := rfl

/-- Positions of the (stripped) input reachable from a position by a chain of
token matches — the positions the scanning loop visits. -/
inductive ScanFrom (alts : List UnitAlt) : List Char → List Char → Prop where
  | refl (r : List Char) : ScanFrom alts r r
  | step (s r : List Char) (k : ℤ) (u rest : List Char) :
      matchAt alts s = some (k, u, rest) → ScanFrom alts rest r → ScanFrom alts s r

theorem scanFrom_len (alts : List UnitAlt) (s r : List Char)
    (h : ScanFrom alts s r) : r.length ≤ s.length := by
  induction h with
  | refl r => exact le_rfl
  | step s2 r2 k u rest hm hs ih =>
    exact le_trans ih (le_of_lt (matchAt_rest_lt alts s2 k u rest hm))

theorem parseGo_spec_nil (alts : List UnitAlt) (durs : List (List Char × Dur))
    (fuel pos : ℕ) (acc : ℤ) (carry : ℚ) :
    (∀ u, parseGo alts durs fuel [] pos acc carry ≠ .error (.keyErr u))
    ∧ (∀ i e, parseGo alts durs fuel [] pos acc carry = .error (.parseErr i e) ↔
        ∃ r, ScanFrom alts [] r ∧ r ≠ [] ∧ matchAt alts r = none
          ∧ i = pos + (List.length ([] : List Char) - r.length) ∧ e = r.take 10) := by
  constructor
  · intro u hc
    rw [parseGo_nil] at hc
    exact Except.noConfusion hc
  · intro i e
    rw [parseGo_nil]
    constructor
    · intro hc; exact Except.noConfusion hc
    · rintro ⟨r, hscan, hne, hmr, -, -⟩
      cases hscan with
      | refl => exact absurd rfl hne
      | step s2 r2 k u rest hm2 hs2 =>
        rw [matchAt_nil] at hm2
        exact Option.noConfusion hm2

/-- Full behavioral characterization of the scan: under a registry covering
every alternation name, the scan never raises `KeyError`, and it raises a
parse error exactly at the first reachable position where the remaining input
is nonempty and no token matches, reporting that offset and the ten-character
excerpt there. -/
theorem parseGo_spec (alts : List UnitAlt) (durs : List (List Char × Dur))
    (hk : ∀ (s0 : List Char) (k : ℤ) (u rest : List Char),
      matchAt alts s0 = some (k, u, rest) → (assocFind u durs).isSome = true) :
    ∀ (fuel : ℕ) (rem : List Char), rem.length ≤ fuel →
      ∀ (pos : ℕ) (acc : ℤ) (carry : ℚ),
      (∀ u, parseGo alts durs fuel rem pos acc carry ≠ .error (.keyErr u))
      ∧ (∀ i e, parseGo alts durs fuel rem pos acc carry = .error (.parseErr i e) ↔
          ∃ r, ScanFrom alts rem r ∧ r ≠ [] ∧ matchAt alts r = none
            ∧ i = pos + (rem.length - r.length) ∧ e = r.take 10) := by
  intro fuel
  induction fuel with
  | zero =>
    intro rem hlen pos acc carry
    obtain rfl : rem = [] := List.length_eq_zero.mp (Nat.le_zero.mp hlen)
    exact parseGo_spec_nil alts durs 0 pos acc carry
  | succ f ih =>
    intro rem hlen pos acc carry
    cases rem with
    | nil => exact parseGo_spec_nil alts durs (f + 1) pos acc carry
    | cons c rem0 =>
    cases hm : matchAt alts (c :: rem0) with
    | none =>
      rw [parseGo_stuck alts durs f c rem0 pos acc carry hm]
      constructor
      · intro u hc
        exact PErr.noConfusion (Except.error.inj hc)
      · intro i e
        constructor
        · intro hc
          obtain ⟨hi, he⟩ := PErr.parseErr.inj (Except.error.inj hc)
          exact ⟨c :: rem0, ScanFrom.refl _, by simp, hm, by omega, he.symm⟩
        · rintro ⟨r, hscan, hne, hmr, hi, he⟩
          cases hscan with
          | refl =>
            have hp : pos + ((c :: rem0).length - (c :: rem0).length) = pos := by omega
            rw [hi, hp, he]
          | step s2 r2 k u rest hm2 hs2 =>
            rw [hm] at hm2
            exact Option.noConfusion hm2
    | some t =>
      obtain ⟨k, u, rest⟩ := t
      have hrest_lt : rest.length < (c :: rem0).length := matchAt_rest_lt alts _ k u rest hm
      have hrest_le : rest.length ≤ f := by
        simp only [List.length_cons] at hlen hrest_lt
        omega
      have hfind : (assocFind u durs).isSome = true := hk _ k u rest hm
      have hscan_fwd : ∀ r, ScanFrom alts (c :: rem0) r → r ≠ [] → matchAt alts r = none →
          ScanFrom alts rest r := by
        intro r hscan hne hmr
        cases hscan with
        | refl => rw [hm] at hmr; exact Option.noConfusion hmr
        | step s2 r2 k2 u2 rest2 hm2 hs2 =>
          rw [hm] at hm2
          replace hm2 : some ((k : ℤ), u, rest) = some (k2, u2, rest2) := hm2
          have hr : rest = rest2 := congrArg (fun t => t.2.2) (Option.some.inj hm2)
          rw [hr]
          exact hs2
      cases hfd : assocFind u durs with
      | none => rw [hfd] at hfind; exact absurd hfind (by simp)
      | some dv =>
      cases dv with
      | i n =>
        have hstep : parseGo alts durs (f + 1) (c :: rem0) pos acc carry
            = parseGo alts durs f rest (pos + ((c :: rem0).length - rest.length))
              (acc + k * n) carry := by
          rw [parseGo_cons_eq alts durs f c rem0 pos acc carry k u rest hm, hfd]
        rw [hstep]
        obtain ⟨ihkey, ihiff⟩ :=
          ih rest hrest_le (pos + ((c :: rem0).length - rest.length)) (acc + k * n) carry
        refine ⟨ihkey, ?_⟩
        intro i e
        rw [ihiff i e]
        constructor
        · rintro ⟨r, hscan, hne, hmr, hi, he⟩
          have hrl := scanFrom_len alts rest r hscan
          exact ⟨r, ScanFrom.step _ _ k u rest hm hscan, hne, hmr, by omega, he⟩
        · rintro ⟨r, hscan, hne, hmr, hi, he⟩
          have hs3 := hscan_fwd r hscan hne hmr
          have hrl := scanFrom_len alts rest r hs3
          exact ⟨r, hs3, hne, hmr, by omega, he⟩
      | f x =>
        have hstep : parseGo alts durs (f + 1) (c :: rem0) pos acc carry
            = parseGo alts durs f rest (pos + ((c :: rem0).length - rest.length))
              (acc + ratTrunc (intMulQ k x)) (qAdd carry (ratFrac (intMulQ k x))) := by
          rw [parseGo_cons_eq alts durs f c rem0 pos acc carry k u rest hm, hfd]
        rw [hstep]
        obtain ⟨ihkey, ihiff⟩ :=
          ih rest hrest_le (pos + ((c :: rem0).length - rest.length))
            (acc + ratTrunc (intMulQ k x)) (qAdd carry (ratFrac (intMulQ k x)))
        refine ⟨ihkey, ?_⟩
        intro i e
        rw [ihiff i e]
        constructor
        · rintro ⟨r, hscan, hne, hmr, hi, he⟩
          have hrl := scanFrom_len alts rest r hscan
          exact ⟨r, ScanFrom.step _ _ k u rest hm hscan, hne, hmr, by omega, he⟩
        · rintro ⟨r, hscan, hne, hmr, hi, he⟩
          have hs3 := hscan_fwd r hscan hne hmr
          have hrl := scanFrom_len alts rest r hs3
          exact ⟨r, hs3, hne, hmr, by omega, he⟩

/-- C6, counterexample: with the constructible empty-registry formatter,
parsing `"5x"` leaves the character `x` unconsumed, yet what is raised is
`KeyError` (the lookup of the matched empty unit name preempts the leftover
check), not the documented parse error — so "parse error exactly when
characters remain unconsumed" fails without a registry-coverage hypothesis. -/
theorem claim_C6_counterexample :
    mkFormatter [] [] = .ok emptyFmt
    ∧ parseInt emptyFmt (cs "5x") = .error (.keyErr [])
    ∧ ∀ i e, parseInt emptyFmt (cs "5x") ≠ .error (.parseErr i e) := by
  have h2 : parseInt emptyFmt (cs "5x") = .error (.keyErr []) := by decide
  refine ⟨by decide, h2, ?_⟩
  intro i e hc
  rw [h2] at hc
  exact PErr.noConfusion (Except.error.inj hc)

/-- C6, amended with the hypothesis that every alternation name is in the
registry (true of every formatter the constructor builds from a nonempty
registry, but refutable for the empty registry, see the counterexample):
an empty or whitespace-only string parses to 0; no `KeyError` is raised; and
`parse_int` fails with a parse error carrying offset `i` and the
ten-character excerpt there exactly when the chain of token matches starting
at the stripped input reaches a position with nonempty remaining text where
no token matches — which covers both a gap after a match and leftover
characters (including zero matches on a non-empty stripped string). -/
theorem claim_C6 (F : Fmt)
    (hk : ∀ a ∈ F.alts, (assocFind (altName a) F.durs).isSome = true) (s : List Char) :
    (pstrip s = [] → parseInt F s = .ok 0)
    ∧ (∀ u, parseInt F s ≠ .error (.keyErr u))
    ∧ (∀ i e, parseInt F s = .error (.parseErr i e) ↔
        ∃ r, ScanFrom F.alts (pstrip s) r ∧ r ≠ [] ∧ matchAt F.alts r = none
          ∧ i = (pstrip s).length - r.length ∧ e = r.take 10) := by
  have hk2 : ∀ (s0 : List Char) (k : ℤ) (u rest : List Char),
      matchAt F.alts s0 = some (k, u, rest) → (assocFind u F.durs).isSome = true := by
    intro s0 k u rest hm0
    rcases matchAt_name F.alts s0 k u rest hm0 with ⟨a, ha, hn⟩
    rw [← hn]
    exact hk a ha
  obtain ⟨hkey, hiff⟩ :=
    parseGo_spec F.alts F.durs hk2 (pstrip s).length (pstrip s) le_rfl 0 0 0
  refine ⟨?_, ?_, ?_⟩
  · intro h0
    rw [parseInt, h0, parseGo_nil, ratTrunc_zero]
    simp
  · intro u
    rw [parseInt]
    exact hkey u
  · intro i e
    rw [parseInt, hiff i e]
    constructor
    · rintro ⟨r, h1, h2, h3, h4, h5⟩
      exact ⟨r, h1, h2, h3, by omega, h5⟩
    · rintro ⟨r, h1, h2, h3, h4, h5⟩
      exact ⟨r, h1, h2, h3, by omega, h5⟩

/-- C6 witness: the default formatter covers every alternation name, and a
whitespace-only string parses to zero. -/
theorem claim_C6_witness :
    (pstrip (cs "  ") = [] → parseInt defaultFmt (cs "  ") = .ok 0)
    ∧ (∀ u, parseInt defaultFmt (cs "  ") ≠ .error (.keyErr u))
    ∧ (∀ i e, parseInt defaultFmt (cs "  ") = .error (.parseErr i e) ↔
        ∃ r, ScanFrom defaultFmt.alts (pstrip (cs "  ")) r ∧ r ≠ []
          ∧ matchAt defaultFmt.alts r = none
          ∧ i = (pstrip (cs "  ")).length - r.length ∧ e = r.take 10) :=
  claim_C6 defaultFmt (by decide) (cs "  ")

theorem bare_numeral_parse (n : ℕ) :
    parseInt defaultFmt (natNumeral n) = .ok ((n : ℤ) * 1000000) := by
  have hstrip : pstrip (natNumeral n) = natNumeral n :=
    all_not_space_pstrip _ (fun c hc => not_space_of_digit c (natNumeral_digits n c hc))
  have hm0 := matchAt_token_eos defaultFmt.alts [] (n : ℤ) (by decide)
    (fun c hc => absurd hc (by simp))
  have hin : intNumeral (n : ℤ) = natNumeral n := by
    rw [intNumeral, if_neg (by omega : ¬ ((n : ℤ) < 0))]
    congr 1
  rw [List.append_nil, hin] at hm0
  rw [parseInt, hstrip]
  rcases List.exists_cons_of_ne_nil (natNumeral_ne_nil n) with ⟨c0, t0, hnn⟩
  rw [hnn] at hm0 ⊢
  show parseGo defaultFmt.alts defaultFmt.durs (t0.length + 1) (c0 :: t0) 0 0 0
      = .ok ((n : ℤ) * 1000000)
  rw [parseGo_cons_eq defaultFmt.alts defaultFmt.durs t0.length c0 t0 0 0 0 (n : ℤ) [] [] hm0]
  have hfind : assocFind [] defaultFmt.durs = some (Dur.i 1000000) := by decide
  rw [hfind]
  show parseGo defaultFmt.alts defaultFmt.durs t0.length []
      (0 + ((c0 :: t0).length - List.length ([] : List Char))) (0 + (n : ℤ) * 1000000) 0
      = .ok ((n : ℤ) * 1000000)
  rw [parseGo_nil, ratTrunc_zero]
  norm_num

/-- C2, amended: the bare-number alternative matches only at end of input or
when immediately followed by another digit — the opposite direction.  Every
bare decimal numeral parses as that many base units (seconds here); a bare
number followed by a non-digit token boundary or by whitespace is a parse
error, not a base-unit token. -/
theorem claim_C2 :
    (∀ n : ℕ, parseInt defaultFmt (natNumeral n) = .ok ((n : ℤ) * 1000000))
    ∧ parseInt defaultFmt (cs "12x") = .error (.parseErr 1 (cs "2x"))
    ∧ parseInt defaultFmt (cs "7 2s") = .error (.parseErr 0 (cs "7 2s"))
    ∧ parseInt defaultFmt (cs "12") = .ok 12000000 :=
  ⟨bare_numeral_parse, by decide, by decide, by decide⟩


/-- All unit names of a duration → aliases table, in iteration order. -/
def flatNames (tu : List (Dur × List (List Char))) : List (List Char) :=
  (tu.map Prod.snd).flatten

theorem assocFind_isSome_iff (k : List Char) :
    ∀ l : List (List Char × Dur), (assocFind k l).isSome = true ↔ k ∈ l.map Prod.fst := by
  intro l
  induction l with
  | nil => simp [assocFind]
  | cons q rest ih =>
    rw [assocFind]
    by_cases hq : q.1 = k
    · rw [if_pos hq]
      constructor
      · intro _
        rw [List.map_cons, hq]
        exact List.mem_cons_self _ _
      · intro _
        rfl
    · rw [if_neg hq]
      simp only [List.map_cons, List.mem_cons]
      rw [ih]
      constructor
      · intro h; right; exact h
      · intro h
        rcases h with h | h
        · exact absurd h.symm hq
        · exact h

theorem addUnits_ok_keys (dt : Dur) :
    ∀ (us : List (List Char)) (acc acc2 : List (List Char × Dur)),
      addUnits dt us acc = .ok acc2 →
      acc2.map Prod.fst = acc.map Prod.fst ++ us := by
  intro us
  induction us with
  | nil =>
    intro acc acc2 h
    rw [addUnits] at h
    rw [← Except.ok.inj h, List.append_nil]
  | cons u more ih =>
    intro acc acc2 h
    rw [addUnits] at h
    by_cases hs : (assocFind u acc).isSome
    · rw [if_pos hs] at h; exact Except.noConfusion h
    · rw [if_neg hs] at h
      rw [ih _ _ h, List.map_append]
      simp

theorem addUnits_ok_nodup (dt : Dur) :
    ∀ (us : List (List Char)) (acc acc2 : List (List Char × Dur)),
      addUnits dt us acc = .ok acc2 →
      (acc.map Prod.fst).Nodup →
      (acc.map Prod.fst ++ us).Nodup := by
  intro us
  induction us with
  | nil =>
    intro acc acc2 _ hnd
    simpa using hnd
  | cons u more ih =>
    intro acc acc2 h hnd
    rw [addUnits] at h
    by_cases hs : (assocFind u acc).isSome
    · rw [if_pos hs] at h; exact Except.noConfusion h
    · rw [if_neg hs] at h
      have hmem : u ∉ acc.map Prod.fst := by
        intro hc
        exact hs ((assocFind_isSome_iff u acc).mpr hc)
      have hnd2 : ((acc ++ [(u, dt)]).map Prod.fst).Nodup := by
        rw [List.map_append]
        simp only [List.map_cons, List.map_nil]
        rw [List.nodup_append]
        refine ⟨hnd, List.nodup_singleton u, ?_⟩
        intro a ha hb
        rw [List.mem_singleton.mp hb] at ha
        exact hmem ha
      have := ih _ _ h hnd2
      rw [List.map_append] at this
      simpa [List.append_assoc] using this

theorem addUnits_error (dt : Dur) :
    ∀ (us : List (List Char)) (acc : List (List Char × Dur)) (e : CfgErr),
      addUnits dt us acc = .error e →
      ∃ u, e = .repeated u ∧ List.Sublist [u, u] (acc.map Prod.fst ++ us) := by
  intro us
  induction us with
  | nil =>
    intro acc e h
    rw [addUnits] at h
    exact Except.noConfusion h
  | cons u more ih =>
    intro acc e h
    rw [addUnits] at h
    by_cases hs : (assocFind u acc).isSome
    · rw [if_pos hs] at h
      refine ⟨u, (Except.error.inj h).symm, ?_⟩
      have hmem : u ∈ acc.map Prod.fst := (assocFind_isSome_iff u acc).mp hs
      have h1 : List.Sublist [u] (acc.map Prod.fst) := List.singleton_sublist.mpr hmem
      have h2 : List.Sublist [u] (u :: more) := List.singleton_sublist.mpr (List.mem_cons_self _ _)
      exact h1.append h2
    · rw [if_neg hs] at h
      rcases ih _ _ h with ⟨v, hv, hsub⟩
      refine ⟨v, hv, ?_⟩
      rw [List.map_append] at hsub
      simpa [List.append_assoc] using hsub

theorem buildDurs_ok_keys :
    ∀ (tu : List (Dur × List (List Char))) (acc acc2 : List (List Char × Dur)),
      buildDurs tu acc = .ok acc2 →
      acc2.map Prod.fst = acc.map Prod.fst ++ flatNames tu := by
  intro tu
  induction tu with
  | nil =>
    intro acc acc2 h
    rw [buildDurs] at h
    rw [← Except.ok.inj h]
    simp [flatNames]
  | cons q rest ih =>
    intro acc acc2 h
    obtain ⟨dt, us⟩ := q
    rw [buildDurs] at h
    cases ha : addUnits dt us acc with
    | error e => rw [ha] at h; exact Except.noConfusion h
    | ok acc1 =>
      rw [ha] at h
      rw [ih _ _ h, addUnits_ok_keys dt us acc acc1 ha]
      simp [flatNames, List.append_assoc]

theorem buildDurs_ok_nodup :
    ∀ (tu : List (Dur × List (List Char))) (acc acc2 : List (List Char × Dur)),
      buildDurs tu acc = .ok acc2 →
      (acc.map Prod.fst).Nodup →
      (acc.map Prod.fst ++ flatNames tu).Nodup := by
  intro tu
  induction tu with
  | nil =>
    intro acc acc2 _ hnd
    simpa [flatNames] using hnd
  | cons q rest ih =>
    intro acc acc2 h hnd
    obtain ⟨dt, us⟩ := q
    rw [buildDurs] at h
    cases ha : addUnits dt us acc with
    | error e => rw [ha] at h; exact Except.noConfusion h
    | ok acc1 =>
      rw [ha] at h
      have hk := addUnits_ok_keys dt us acc acc1 ha
      have hnd1 : (acc1.map Prod.fst).Nodup := by
        rw [hk]; exact addUnits_ok_nodup dt us acc acc1 ha hnd
      have := ih _ _ h hnd1
      rw [hk] at this
      simpa [flatNames, List.append_assoc] using this

theorem buildDurs_error :
    ∀ (tu : List (Dur × List (List Char))) (acc : List (List Char × Dur)) (e : CfgErr),
      buildDurs tu acc = .error e →
      ∃ u, e = .repeated u ∧ List.Sublist [u, u] (acc.map Prod.fst ++ flatNames tu) := by
  intro tu
  induction tu with
  | nil =>
    intro acc e h
    rw [buildDurs] at h
    exact Except.noConfusion h
  | cons q rest ih =>
    intro acc e h
    obtain ⟨dt, us⟩ := q
    rw [buildDurs] at h
    cases ha : addUnits dt us acc with
    | error e2 =>
      rw [ha] at h
      rcases addUnits_error dt us acc e2 ha with ⟨u, hu, hsub⟩
      refine ⟨u, by rw [← Except.error.inj h]; exact hu, ?_⟩
      have hext : List.Sublist (acc.map Prod.fst ++ us)
          (acc.map Prod.fst ++ flatNames ((dt, us) :: rest)) := by
        simp only [flatNames, List.map_cons, List.flatten_cons]
        rw [← List.append_assoc]
        exact List.sublist_append_left _ _
      exact hsub.trans hext
    | ok acc1 =>
      rw [ha] at h
      rcases ih _ _ h with ⟨u, hu, hsub⟩
      refine ⟨u, hu, ?_⟩
      rw [addUnits_ok_keys dt us acc acc1 ha] at hsub
      have hre : (acc.map Prod.fst ++ us) ++ flatNames rest
          = acc.map Prod.fst ++ flatNames ((dt, us) :: rest) := by
        simp [flatNames, List.append_assoc]
      rw [hre] at hsub
      exact hsub

theorem mkFormatter_not_repeated (durs : List (List Char × Dur)) (fmts : List (List Char))
    (u : List Char) : mkFormatter durs fmts ≠ .error (.repeated u) := by
  intro h
  rw [mkFormatter] at h
  cases hb : firstBad durs with
  | some v =>
    rw [hb] at h
    exact CfgErr.noConfusion (Except.error.inj h)
  | none =>
    rw [hb] at h
    replace h : mkFormatter2 (durs.map (fun p => (p.1, normDur p.2))) fmts
        = .error (.repeated u) := h
    rw [mkFormatter2] at h
    cases hm : firstMissing (durs.map (fun p => (p.1, normDur p.2))) fmts with
    | some v =>
      rw [hm] at h
      exact CfgErr.noConfusion (Except.error.inj h)
    | none =>
      rw [hm] at h
      exact Except.noConfusion h

/-- C9: `make_formatter` fails with an error naming the repeated unit exactly
when some unit name is supplied more than once across the table (under one
duration or under different durations): if the flattened name list has a
duplicate, the result is `Repeated u` for a name `u` occurring at least
twice; any `Repeated u` error names such a name; and with no duplicate no
`Repeated` error is possible. -/
theorem claim_C9 (tu : List (Dur × List (List Char))) (fo : Option (List (List Char))) :
    (¬ (flatNames tu).Nodup → ∃ u, makeFormatter tu fo = .error (.repeated u)
        ∧ List.Sublist [u, u] (flatNames tu))
    ∧ (∀ u, makeFormatter tu fo = .error (.repeated u) → List.Sublist [u, u] (flatNames tu))
    ∧ ((flatNames tu).Nodup → ∀ u, makeFormatter tu fo ≠ .error (.repeated u)) := by
  refine ⟨?_, ?_, ?_⟩
  · intro hnd
    cases hb : buildDurs tu [] with
    | ok durs =>
      exact absurd (by simpa using buildDurs_ok_nodup tu [] durs hb (by simp)) hnd
    | error e =>
      rcases buildDurs_error tu [] e hb with ⟨u, hu, hsub⟩
      refine ⟨u, ?_, by simpa using hsub⟩
      simp only [makeFormatter, hb, hu]
  · intro u h
    cases hb : buildDurs tu [] with
    | ok durs =>
      simp only [makeFormatter, hb] at h
      exact absurd h (mkFormatter_not_repeated _ _ u)
    | error e =>
      simp only [makeFormatter, hb] at h
      rcases buildDurs_error tu [] e hb with ⟨v, hv, hsub⟩
      have hvu : v = u := by
        rw [hv] at h
        exact CfgErr.repeated.inj (Except.error.inj h)
      rw [hvu] at hsub
      simpa using hsub
  · intro hnd u h
    cases hb : buildDurs tu [] with
    | ok durs =>
      simp only [makeFormatter, hb] at h
      exact mkFormatter_not_repeated _ _ u h
    | error e =>
      rcases buildDurs_error tu [] e hb with ⟨v, hv, hsub⟩
      have hc2 : List.Sublist [v, v] (flatNames tu) := by simpa using hsub
      have := hnd.sublist hc2
      simp at this

/-- C9 witness: a table repeating `"s"` under one duration makes
`make_formatter` fail naming `"s"`. -/
theorem claim_C9_witness :
    ∃ u, makeFormatter [(Dur.i 1000000, [cs "s", cs "s"])] none = .error (.repeated u)
      ∧ List.Sublist [u, u] (flatNames [(Dur.i 1000000, [cs "s", cs "s"])]) :=
  (claim_C9 [(Dur.i 1000000, [cs "s", cs "s"])] none).1 (by decide)

theorem lexLe_total (a : List Char) : ∀ b, lexLe a b = true ∨ lexLe b a = true := by
  induction a with
  | nil => intro b; exact Or.inl rfl
  | cons c t ih =>
    intro b
    cases b with
    | nil => exact Or.inr rfl
    | cons d u =>
      rcases lt_trichotomy c d with h | h | h
      · left
        show (if c < d then true else if d < c then false else lexLe t u) = true
        rw [if_pos h]
      · subst h
        rcases ih u with h2 | h2
        · left
          show (if c < c then true else if c < c then false else lexLe t u) = true
          rw [if_neg (lt_irrefl c), if_neg (lt_irrefl c)]
          exact h2
        · right
          show (if c < c then true else if c < c then false else lexLe u t) = true
          rw [if_neg (lt_irrefl c), if_neg (lt_irrefl c)]
          exact h2
      · right
        show (if d < c then true else if c < d then false else lexLe u t) = true
        rw [if_pos h]

theorem lexLe_antisymm : ∀ a b, lexLe a b = true → lexLe b a = true → a = b := by
  intro a
  induction a with
  | nil =>
    intro b h1 h2
    cases b with
    | nil => rfl
    | cons d u => exact Bool.noConfusion (show false = true from h2)
  | cons c t ih =>
    intro b h1 h2
    cases b with
    | nil => exact Bool.noConfusion (show false = true from h1)
    | cons d u =>
      replace h1 : (if c < d then true else if d < c then false else lexLe t u) = true := h1
      replace h2 : (if d < c then true else if c < d then false else lexLe u t) = true := h2
      by_cases hcd : c < d
      · rw [if_neg (lt_asymm hcd), if_pos hcd] at h2
        exact Bool.noConfusion h2
      · by_cases hdc : d < c
        · rw [if_neg hcd, if_pos hdc] at h1
          exact Bool.noConfusion h1
        · have hce : c = d := le_antisymm (le_of_not_lt hdc) (le_of_not_lt hcd)
          rw [if_neg hcd, if_neg hdc] at h1
          rw [if_neg hdc, if_neg hcd] at h2
          rw [hce, ih u h1 h2]

theorem lexLe_trans : ∀ a b c, lexLe a b = true → lexLe b c = true → lexLe a c = true := by
  intro a
  induction a with
  | nil => intro b c _ _; rfl
  | cons x as ih =>
    intro b c h1 h2
    cases b with
    | nil => exact Bool.noConfusion (show false = true from h1)
    | cons y bs =>
      cases c with
      | nil => exact Bool.noConfusion (show false = true from h2)
      | cons z zs =>
        replace h1 : (if x < y then true else if y < x then false else lexLe as bs) = true := h1
        replace h2 : (if y < z then true else if z < y then false else lexLe bs zs) = true := h2
        show (if x < z then true else if z < x then false else lexLe as zs) = true
        by_cases hxy : x < y
        · by_cases hyz : y < z
          · rw [if_pos (lt_trans hxy hyz)]
          · by_cases hzy : z < y
            · rw [if_neg hyz, if_pos hzy] at h2
              exact Bool.noConfusion h2
            · have hyez : y = z := le_antisymm (le_of_not_lt hzy) (le_of_not_lt hyz)
              rw [if_pos (hyez ▸ hxy)]
        · by_cases hyx : y < x
          · rw [if_neg hxy, if_pos hyx] at h1
            exact Bool.noConfusion h1
          · have hxe : x = y := le_antisymm (le_of_not_lt hyx) (le_of_not_lt hxy)
            rw [if_neg hxy, if_neg hyx] at h1
            subst hxe
            by_cases hxz : x < z
            · rw [if_pos hxz]
            · by_cases hzx : z < x
              · rw [if_neg hxz, if_pos hzx] at h2
                exact Bool.noConfusion h2
              · rw [if_neg hxz, if_neg hzx]
                rw [if_neg hxz, if_neg hzx] at h2
                exact ih bs zs h1 h2

instance : IsTotal (List Char) lexGe := ⟨fun a b => Or.symm (lexLe_total a b)⟩

instance : IsTrans (List Char) lexGe := ⟨fun a b c h1 h2 => lexLe_trans c b a h2 h1⟩

instance : IsAntisymm (List Char) lexGe := ⟨fun a b h1 h2 => (lexLe_antisymm b a h1 h2).symm⟩

instance (durs : List (List Char × Dur)) : IsTotal (List Char) (keyGe durs) :=
  ⟨fun a b => le_total (durKeyQ durs b) (durKeyQ durs a)⟩

instance (durs : List (List Char × Dur)) : IsTrans (List Char) (keyGe durs) :=
  ⟨fun a b c h1 h2 => le_trans h2 h1⟩

/-- Two sorted permutations of each other are equal, needing antisymmetry
only on the elements actually present (Python's stable sort: with no ties
among distinct elements, insertion order cannot matter). -/
theorem sorted_perm_eq_on {α : Type} (r : α → α → Prop) :
    ∀ (l1 l2 : List α), l1.Perm l2 → l1.Pairwise r → l2.Pairwise r →
      (∀ a ∈ l1, ∀ b ∈ l1, r a b → r b a → a = b) → l1 = l2 := by
  intro l1
  induction l1 with
  | nil => intro l2 hp _ _ _; exact hp.nil_eq
  | cons a t1 ih =>
    intro l2 hp hw1 hw2 has
    cases l2 with
    | nil => exact absurd hp.eq_nil (List.cons_ne_nil a t1)
    | cons b t2 =>
      by_cases hab : a = b
      · subst hab
        have htp : t1.Perm t2 := hp.cons_inv
        rw [ih t2 htp (List.pairwise_cons.mp hw1).2 (List.pairwise_cons.mp hw2).2
          (fun x hx y hy => has x (List.mem_cons_of_mem _ hx) y (List.mem_cons_of_mem _ hy))]
      · have ha2 : a ∈ t2 := by
          have hm : a ∈ b :: t2 := hp.subset (List.mem_cons_self a t1)
          rcases List.mem_cons.mp hm with h | h
          · exact absurd h hab
          · exact h
        have hb1 : b ∈ t1 := by
          have hm : b ∈ a :: t1 := hp.symm.subset (List.mem_cons_self b t2)
          rcases List.mem_cons.mp hm with h | h
          · exact absurd h.symm hab
          · exact h
        have hrab : r a b := (List.pairwise_cons.mp hw1).1 b hb1
        have hrba : r b a := (List.pairwise_cons.mp hw2).1 a ha2
        exact absurd (has a (List.mem_cons_self _ _) b (List.mem_cons_of_mem _ hb1) hrab hrba)
          hab

theorem assocFind_some_of_mem_nodup (k : List Char) (v : Dur) :
    ∀ (l : List (List Char × Dur)), (k, v) ∈ l → (l.map Prod.fst).Nodup →
      assocFind k l = some v := by
  intro l
  induction l with
  | nil => intro hm _; exact absurd hm (List.not_mem_nil _)
  | cons p rest ih =>
    intro hm hnd
    rw [List.map_cons, List.nodup_cons] at hnd
    rcases List.mem_cons.mp hm with h | h
    · rw [assocFind, if_pos (congrArg Prod.fst h.symm)]
      rw [← h]
    · have hk : p.1 ≠ k := by
        intro hc
        exact hnd.1 (hc ▸ (List.mem_map.mpr ⟨(k, v), h, rfl⟩))
      rw [assocFind, if_neg hk]
      exact ih h hnd.2

/-- Registries that are permutations of each other with no repeated unit
names look up identically (dict contents, not insertion order, matter). -/
theorem assocFind_perm (l1 l2 : List (List Char × Dur)) (hp : l1.Perm l2)
    (hnd : (l1.map Prod.fst).Nodup) (u : List Char) :
    assocFind u l1 = assocFind u l2 := by
  have hnd2 : (l2.map Prod.fst).Nodup := ((hp.map Prod.fst).nodup_iff).mp hnd
  cases h1 : assocFind u l1 with
  | some d =>
    exact (assocFind_some_of_mem_nodup u d l2 (hp.subset (assocFind_mem l1 u d h1)) hnd2).symm
  | none =>
    cases h2 : assocFind u l2 with
    | none => rfl
    | some d =>
      have : assocFind u l1 = some d :=
        assocFind_some_of_mem_nodup u d l1 (hp.symm.subset (assocFind_mem l2 u d h2)) hnd
      rw [h1] at this
      exact Option.noConfusion this

/-- The scan's behavior depends on the registry only through lookup. -/
theorem parseGo_congr_durs (alts : List UnitAlt) (durs1 durs2 : List (List Char × Dur))
    (h : ∀ u, assocFind u durs1 = assocFind u durs2) :
    ∀ (fuel : ℕ) (rem : List Char) (pos : ℕ) (acc : ℤ) (carry : ℚ),
      parseGo alts durs1 fuel rem pos acc carry = parseGo alts durs2 fuel rem pos acc carry := by
  intro fuel
  induction fuel with
  | zero => intro rem pos acc carry; cases rem <;> rfl
  | succ f ih =>
    intro rem pos acc carry
    cases rem with
    | nil => rw [parseGo_nil, parseGo_nil]
    | cons c rem0 =>
      cases hm : matchAt alts (c :: rem0) with
      | none =>
        rw [parseGo_stuck alts durs1 f c rem0 pos acc carry hm,
          parseGo_stuck alts durs2 f c rem0 pos acc carry hm]
      | some t =>
        obtain ⟨k, u, rest⟩ := t
        rw [parseGo_cons_eq alts durs1 f c rem0 pos acc carry k u rest hm,
          parseGo_cons_eq alts durs2 f c rem0 pos acc carry k u rest hm, h u]
        cases assocFind u durs2 with
        | none => rfl
        | some dv =>
          cases dv with
          | i n => exact ih rest _ _ _
          | f x => exact ih rest _ _ _

theorem mkFormatter_ok_parts (durs : List (List Char × Dur)) (fmts : List (List Char))
    (F : Fmt) (h : mkFormatter durs fmts = .ok F) :
    F.alts = mkAlts ((durs.map (fun p => (p.1, normDur p.2))).map Prod.fst)
    ∧ F.durs = durs.map (fun p => (p.1, normDur p.2))
    ∧ F.fmtUnits = (List.insertionSort (keyGe (durs.map (fun p => (p.1, normDur p.2)))) fmts).map
        (fun u => (u, (assocFind u (durs.map (fun p => (p.1, normDur p.2)))).getD (Dur.i 0))) := by
  rw [mkFormatter] at h
  cases hb : firstBad durs with
  | some u => rw [hb] at h; exact Except.noConfusion h
  | none =>
    rw [hb] at h
    replace h : mkFormatter2 (durs.map (fun p => (p.1, normDur p.2))) fmts = .ok F := h
    rw [mkFormatter2] at h
    cases hm : firstMissing (durs.map (fun p => (p.1, normDur p.2))) fmts with
    | some u => rw [hm] at h; exact Except.noConfusion h
    | none =>
      rw [hm] at h
      replace h : Except.ok (Fmt.mk
          (mkAlts ((durs.map (fun p => (p.1, normDur p.2))).map Prod.fst))
          (durs.map (fun p => (p.1, normDur p.2)))
          ((List.insertionSort (keyGe (durs.map (fun p => (p.1, normDur p.2)))) fmts).map
            (fun u => (u, (assocFind u (durs.map (fun p => (p.1, normDur p.2)))).getD (Dur.i 0)))))
          = .ok F := h
      rw [← Except.ok.inj h]
      exact ⟨rfl, rfl, rfl⟩

theorem normDur_q (d : Dur) : (normDur d).q = d.q := by
  cases d with
  | i n => rfl
  | f x =>
    show (if x.den = 1 then Dur.i x.num else Dur.f x).q = (Dur.f x).q
    by_cases hd : x.den = 1
    · rw [if_pos hd]
      show (x.num : ℚ) = x
      have h0 := Rat.num_div_den x
      rw [hd] at h0
      simpa using h0
    · rw [if_neg hd]

theorem assocFind_map_norm (u : List Char) :
    ∀ l : List (List Char × Dur),
      assocFind u (l.map (fun p => (p.1, normDur p.2))) = (assocFind u l).map normDur := by
  intro l
  induction l with
  | nil => rfl
  | cons p rest ih =>
    rw [List.map_cons, assocFind, assocFind]
    by_cases hp : p.1 = u
    · rw [if_pos hp, if_pos hp]
      rfl
    · rw [if_neg hp, if_neg hp]
      exact ih

theorem durKeyQ_map_norm (l : List (List Char × Dur)) (u : List Char) :
    durKeyQ (l.map (fun p => (p.1, normDur p.2))) u = durKeyQ l u := by
  rw [durKeyQ, durKeyQ, assocFind_map_norm]
  cases assocFind u l with
  | none => rfl
  | some d => exact normDur_q d

/-- Formatter built from the registry `a = 1, b = 2` given in one insertion
order, with output units `a, b`. -/
def permFmtA : Fmt :=
  match mkFormatter [(cs "a", .i 1), (cs "b", .i 2)] [cs "a", cs "b"] with
  | .ok F => F
  | .error _ => ⟨[], [], []⟩

/-- The same registry contents and output units given in the other order. -/
def permFmtB : Fmt :=
  match mkFormatter [(cs "b", .i 2), (cs "a", .i 1)] [cs "b", cs "a"] with
  | .ok F => F
  | .error _ => ⟨[], [], []⟩

set_option maxHeartbeats 1000000 in
/-- C7, amended: two successful constructions from registries with the same
contents (no repeated unit names) and output-unit lists with the same
contents parse and format identically, provided distinct output units have
distinct durations; the counterexample shows the proviso is needed — tied
durations make the stable sort keep insertion order, which is observable. -/
theorem claim_C7 (d1 d2 : List (List Char × Dur)) (f1 f2 : List (List Char)) (F1 F2 : Fmt)
    (hp : d1.Perm d2) (hnd : (d1.map Prod.fst).Nodup) (hfp : f1.Perm f2)
    (hdist : ∀ u ∈ f1, ∀ v ∈ f1, durKeyQ d1 u = durKeyQ d1 v → u = v)
    (h1 : mkFormatter d1 f1 = .ok F1) (h2 : mkFormatter d2 f2 = .ok F2) :
    (∀ s, parseInt F1 s = parseInt F2 s)
    ∧ (∀ v res z, formatInt F1 v res z = formatInt F2 v res z) := by
  obtain ⟨A1, D1, U1⟩ := mkFormatter_ok_parts d1 f1 F1 h1
  obtain ⟨A2, D2, U2⟩ := mkFormatter_ok_parts d2 f2 F2 h2
  have hpn : (d1.map (fun p => (p.1, normDur p.2))).Perm
      (d2.map (fun p => (p.1, normDur p.2))) := hp.map _
  have hk1 : (d1.map (fun p => (p.1, normDur p.2))).map Prod.fst = d1.map Prod.fst := by
    rw [List.map_map]
    rfl
  have hndn : ((d1.map (fun p => (p.1, normDur p.2))).map Prod.fst).Nodup := by
    rw [hk1]
    exact hnd
  have hfind : ∀ u, assocFind u (d1.map (fun p => (p.1, normDur p.2)))
      = assocFind u (d2.map (fun p => (p.1, normDur p.2))) :=
    assocFind_perm _ _ hpn hndn
  have hkeysperm : ((d1.map (fun p => (p.1, normDur p.2))).map Prod.fst).Perm
      ((d2.map (fun p => (p.1, normDur p.2))).map Prod.fst) := hpn.map _
  have halts : F1.alts = F2.alts := by
    rw [A1, A2, mkAlts, mkAlts]
    by_cases hke : (d1.map (fun p => (p.1, normDur p.2))).map Prod.fst = []
    · have hke2 : (d2.map (fun p => (p.1, normDur p.2))).map Prod.fst = [] :=
        ((hke ▸ hkeysperm).nil_eq).symm
      rw [if_pos hke, if_pos hke2]
    · have hke2 : ¬ ((d2.map (fun p => (p.1, normDur p.2))).map Prod.fst = []) :=
        fun hc => hke ((hc ▸ hkeysperm).eq_nil)
      rw [if_neg hke, if_neg hke2]
      congr 1
      exact List.eq_of_perm_of_sorted
        ((List.perm_insertionSort lexGe _).trans
          (hkeysperm.trans (List.perm_insertionSort lexGe _).symm))
        (List.sorted_insertionSort lexGe _) (List.sorted_insertionSort lexGe _)
  have hdurs : ∀ u, assocFind u F1.durs = assocFind u F2.durs := by
    intro u
    rw [D1, D2]
    exact hfind u
  have hkeyq : ∀ u, durKeyQ (d1.map (fun p => (p.1, normDur p.2))) u
      = durKeyQ (d2.map (fun p => (p.1, normDur p.2))) u := by
    intro u
    rw [durKeyQ, durKeyQ, hfind u]
  have hsorteq : List.insertionSort (keyGe (d1.map (fun p => (p.1, normDur p.2)))) f1
      = List.insertionSort (keyGe (d2.map (fun p => (p.1, normDur p.2)))) f2 := by
    apply sorted_perm_eq_on (keyGe (d1.map (fun p => (p.1, normDur p.2))))
    · exact (List.perm_insertionSort _ f1).trans
        (hfp.trans (List.perm_insertionSort _ f2).symm)
    · exact List.sorted_insertionSort _ f1
    · have hs2 := List.sorted_insertionSort (keyGe (d2.map (fun p => (p.1, normDur p.2)))) f2
      refine List.Pairwise.imp ?_ hs2
      intro a b hab
      rw [keyGe, hkeyq a, hkeyq b]
      exact hab
    · intro a ha b hb hab hba
      have haf : a ∈ f1 := (List.perm_insertionSort _ f1).subset ha
      have hbf : b ∈ f1 := (List.perm_insertionSort _ f1).subset hb
      apply hdist a haf b hbf
      have hqe : durKeyQ (d1.map (fun p => (p.1, normDur p.2))) a
          = durKeyQ (d1.map (fun p => (p.1, normDur p.2))) b := le_antisymm hba hab
      rw [durKeyQ_map_norm, durKeyQ_map_norm] at hqe
      exact hqe
  have hfun : (fun u => (u, (assocFind u (d1.map (fun p => (p.1, normDur p.2)))).getD (Dur.i 0)))
      = (fun u => (u, (assocFind u (d2.map (fun p => (p.1, normDur p.2)))).getD (Dur.i 0))) :=
    funext fun u => by rw [hfind u]
  have hunits : F1.fmtUnits = F2.fmtUnits := by
    rw [U1, U2, hsorteq, hfun]
  constructor
  · intro s
    rw [parseInt, parseInt, halts]
    exact parseGo_congr_durs F2.alts F1.durs F2.durs hdurs _ _ _ _ _
  · intro v res z
    rw [formatInt, formatInt, signedParts, signedParts, hunits]

/-- C7 witness: the registry `a = 1, b = 2` in its two insertion orders. -/
theorem claim_C7_witness :
    (∀ s, parseInt permFmtA s = parseInt permFmtB s)
    ∧ (∀ v res z, formatInt permFmtA v res z = formatInt permFmtB v res z) :=
  claim_C7 [(cs "a", .i 1), (cs "b", .i 2)] [(cs "b", .i 2), (cs "a", .i 1)]
    [cs "a", cs "b"] [cs "b", cs "a"] permFmtA permFmtB
    (by decide) (by decide) (by decide) (by decide) (by decide) (by decide)

/-- C7, counterexample: the same registry `a = b = 1` with the output-unit
list supplied in its two insertion orders yields observably different
formatting (`"5a"` versus `"5b"`): the stable sort keeps tied durations in
their original relative order. -/
theorem claim_C7_counterexample :
    mkFormatter [(cs "a", .i 1), (cs "b", .i 1)] [cs "a", cs "b"] = .ok tieFmtA
    ∧ mkFormatter [(cs "a", .i 1), (cs "b", .i 1)] [cs "b", cs "a"] = .ok tieFmtB
    ∧ formatInt tieFmtA 5 1 (cs "0") = .ok (cs "5a")
    ∧ formatInt tieFmtB 5 1 (cs "0") = .ok (cs "5b")
    ∧ formatInt tieFmtA 5 1 (cs "0") ≠ formatInt tieFmtB 5 1 (cs "0") := by
  exact ⟨by decide, by decide, by decide, by decide, by decide⟩

end Tdf

